import Mathlib

/-!
# Addition chains: the Yacobi algorithm and the algorithm ensemble

A shallow embedding of `alg/yacobi/yacobi.go` and `alg/ensemble/ensemble.go`.

* Arbitrary-precision integers (`*big.Int`) that are never negative are natural numbers.
* The trie of `buildTree` is a pointer structure that is mutated in place.  It is embedded as
  a heap (a list of nodes); a pointer is an index into the heap and `nil` is `none`.
* A sequence algorithm is an interface value and may carry state of its own, so it is a
  function that threads a state; its Go result pair `(chain, error)` is a pair
  `(chain, optional error)`.
* Loops whose trip count is bounded by the number of remaining bits take that bound as a
  structural recursion argument; the theorems `skipZeros_fuel`, `descend_fuel` and
  `buildLoop_fuel` show that a larger bound gives the same result.
* Properties of `buildTree` are loop invariants: `buildLoop_induction` on the loop state,
  `buildTree_symbols` on the symbols `(e, z, l)` of the parses, and `IsTrie` on the heap.
-/

namespace yacobi

/-! ## Integers -/

/-- Bit `i` of `x` as 0 or 1 (`Bit` of math/big). -/
def Bit (x i : Nat) : Nat := x / 2 ^ i % 2

/-- Worker of `BitLen`: count the binary digits of `x`, at most `fuel` of them. -/
def bitLenAux : Nat → Nat → Nat
  | 0, _ => 0
  | fuel + 1, x => if x = 0 then 0 else bitLenAux fuel (x / 2) + 1

/-- Length of `x` in bits (`BitLen` of math/big); the bit length of 0 is 0. -/
def BitLen (x : Nat) : Nat := bitLenAux x x

/-- Modelled from the spec: `bigint.IsNonZero` of internal/bigint is not among the sources;
the spec has "if the target is zero, return an empty chain immediately". -/
def IsNonZero (x : Nat) : Bool := x != 0

/-- Modelled from the spec: `bigint.One` of internal/bigint is not among the sources; it is
the integer one. -/
def One : Nat := 1

/-- Modelled from the spec: `bigint.Extract` of internal/bigint is not among the sources; the
spec has "the bits traversed from start to the current b form this symbol's extracted value e
(interpreted as an integer from those bits, most-significant bit first within the run)": the
bits of `x` at positions `lo ≤ i < hi`, moved down to position 0. -/
def Extract (x lo hi : Nat) : Nat := x / 2 ^ lo % 2 ^ (hi - lo)

/-- Modelled from the spec: `bigints.Sort` of internal/bigints is not among the sources; the
spec has "sort ascending". -/
def SortAscending (xs : List Nat) : List Nat := xs.insertionSort (fun a b => a ≤ b)

/-- Modelled from the spec: `bigints.Unique` of internal/bigints is not among the sources; the
spec has "remove duplicates". -/
def Unique (xs : List Nat) : List Nat := xs.dedup

/-- Modelled from the spec: `Chain.AppendClone` of the root package is not among the sources;
the spec has "appends a defensive, independent copy of value to the chain". -/
def AppendClone (c : List Nat) (x : Nat) : List Nat := c ++ [x]

/-! ## The trie -/

/-- Tree node of `buildTree`.  The children are pointers: indices into the heap. -/
structure node where
  /-- Extracted bits for this symbol. -/
  e : Nat
  /-- The bit length. -/
  l : Nat
  /-- The number of trailing zeroes when this symbol was first seen. -/
  z : Nat
  /-- Branch of the tree for a one bit. -/
  childOne : Option Nat
  /-- Branch of the tree for a zero bit. -/
  childZero : Option Nat
deriving DecidableEq, Repr

/-- The zero value of `node`. -/
instance : Inhabited node := ⟨⟨0, 0, 0, none, none⟩⟩

/-- Read the node a pointer refers to. -/
def deref (heap : List node) (p : Nat) : node := heap.getD p default

/-- Assignment `p.childZero = q`. -/
def setChildZero (heap : List node) (p q : Nat) : List node :=
  heap.set p { deref heap p with childZero := some q }

/-- Assignment `p.childOne = q`. -/
def setChildOne (heap : List node) (p q : Nat) : List node :=
  heap.set p { deref heap p with childOne := some q }

/-- Zero-skipping loop of `buildTree`: `for b < n && seq.Bit(b) == 0 { z++; b++ }`.
The first argument bounds the trip count; the call site passes `n - b`.  Result `(b, z)`. -/
def skipZeros (seq n : Nat) : Nat → Nat → Nat → Nat × Nat
  | 0, b, z => (b, z)
  | fuel + 1, b, z =>
    if b < n ∧ Bit seq b = 0 then skipZeros seq n fuel (b + 1) (z + 1) else (b, z)

/-- Descent loop of `buildTree` (the inner `for` without a condition).  The first argument
bounds the trip count; the call site passes `n - b`.  Result `(b, l, p, ns)`. -/
def descend (seq n : Nat) (heap : List node) : Nat → Nat → Nat → Nat → Nat → Nat × Nat × Nat × Nat
  | 0, b, l, p, ns => (b, l, p, ns)
  | fuel + 1, b, l, p, ns =>
    if b ≥ n then (b, l, p, ns)
    else
      let ns := Bit seq b
      let b := b + 1
      let l := l + 1
      if ns = 0 then
        match (deref heap p).childZero with
        | none => (b, l, p, ns)
        | some q => descend seq n heap fuel b l q ns
      else
        match (deref heap p).childOne with
        | none => (b, l, p, ns)
        | some q => descend seq n heap fuel b l q ns

/-- Body of the outer loop of `buildTree` from the cursor `b`: skip zeros, descend the trie,
create the leaf, attach it below the last matched node and record it.  The result is the next
loop state, or `none` when the body leaves the loop by `if b >= n { break }`. -/
def buildStep (seq n b : Nat) (heap : List node) (parses : List Nat) :
    Option (Nat × List node × List Nat) :=
  let bz := skipZeros seq n (n - b) b 0
  let b := bz.1
  let z := bz.2
  if b ≥ n then none
  else
    let start := b
    let r := descend seq n heap (n - b) b 0 0 0
    let b := r.1
    let l := r.2.1
    let p := r.2.2.1
    let ns := r.2.2.2
    let stop := b
    let leaf : node := ⟨Extract seq start stop, l, z, none, none⟩
    let q := heap.length
    let heap := heap ++ [leaf]
    let heap := if ns = 0 then setChildZero heap p q else setChildOne heap p q
    some (b, heap, parses ++ [q])

/-- Outer loop of `buildTree`: `for b < n { ... }`.  The state is the cursor `b`, the heap and
the list of parses (pointers to leaves).  The first argument bounds the trip count; the call
site passes `n`. -/
def buildLoop (seq n : Nat) : Nat → Nat → List node → List Nat → List node × List Nat
  | 0, _, heap, parses => (heap, parses)
  | fuel + 1, b, heap, parses =>
    if b < n then
      match buildStep seq n b heap parses with
      | none => (heap, parses)
      | some st => buildLoop seq n fuel st.1 st.2.1 st.2.2
    else (heap, parses)

/-- Trie and parse pointers at the end of `buildTree`: the heap starts with the root
`&node{e: bigint.One()}` at address 0. -/
def buildTreeState (seq : Nat) : List node × List Nat :=
  let root : node := ⟨One, 0, 0, none, none⟩
  let n := BitLen seq
  buildLoop seq n n 0 [root] []

/-- Subroutine build-tree: the parses, each pointer read through the final heap. -/
def buildTree (seq : Nat) : List node :=
  let st := buildTreeState seq
  st.2.map (deref st.1)

/-! ## Chain derivation -/

/-- A sequence algorithm: `FindSequence(targets) (Chain, error)` of an interface value with
state `σ`. -/
abbrev SequenceAlgorithm (σ ε : Type) := σ → List Nat → (List Nat × Option ε) × σ

/-- The dictionary of `deriveChain`: the values `e` of the parses, sorted and deduplicated. -/
def dictionary (parses : List node) : List Nat :=
  Unique (SortAscending (parses.map (fun parse => parse.e)))

/-- Doubling loop of `deriveChain`: `for j := 0; j < z+l; j++ { x.Lsh(x, 1); c.AppendClone(x) }`.
The first argument is the number of iterations left.  Result `(x, c)`. -/
def shiftLoop : Nat → Nat → List Nat → Nat × List Nat
  | 0, x, c => (x, c)
  | j + 1, x, c =>
    let x := x <<< 1
    shiftLoop j x (AppendClone c x)

/-- Main loop of `deriveChain`: `for i := len(parses) - 1; i >= 0; i--`.  The first argument
is `i + 1`.  Result `(x, c)`. -/
def deriveLoop (parses : List node) : Nat → Nat → List Nat → Nat × List Nat
  | 0, x, c => (x, c)
  | i + 1, x, c =>
    let e := (parses.getD i default).e
    let z := (parses.getD i default).z
    let l := if i > 0 then (parses.getD (i - 1) default).l else 0
    let x := x + e
    let c := AppendClone c x
    let r := shiftLoop (z + l) x c
    deriveLoop parses i r.1 r.2

/-- Generate the addition chain for the given output of `buildTree`. -/
def deriveChain {σ ε : Type} (seqalg : SequenceAlgorithm σ ε) (s : σ) (parses : List node) :
    (List Nat × Option ε) × σ :=
  let dict := dictionary parses
  match seqalg s dict with
  | ((_, some err), s1) => (([], some err), s1)
  | ((c, none), s1) =>
    let r := deriveLoop parses parses.length 0 c
    ((Unique (SortAscending r.2), none), s1)

/-- Apply the Yacobi chain generation algorithm to the target. -/
def FindChain {σ ε : Type} (seqalg : SequenceAlgorithm σ ε) (s : σ) (target : Nat) :
    (List Nat × Option ε) × σ :=
  if !IsNonZero target then (([], none), s)
  else
    let parses := buildTree target
    deriveChain seqalg s parses

/-! ## Properties used in the statements -/

/-- Addition chain: the first element is 1 and every later element is the sum of two earlier
elements (an element may be used twice, which is a doubling). -/
def IsAddChain (c : List Nat) : Prop :=
  c.head? = some 1 ∧
    ∀ i < c.length, 0 < i → ∃ j < i, ∃ k < i, c.getD i 0 = c.getD j 0 + c.getD k 0

instance : DecidablePred IsAddChain := fun c => by
  unfold IsAddChain
  infer_instance

/-- The symbol of a parse: its extracted value, zero count and bit length `(e, z, l)`. -/
def symbol (nd : node) : Nat × Nat × Nat := (nd.e, nd.z, nd.l)

/-- Number of bits covered by the first `k` parses: the sum of their `z + l`. -/
def posUpTo (parses : List node) : Nat → Nat
  | 0 => 0
  | k + 1 => posUpTo parses k + ((parses.getD k default).z + (parses.getD k default).l)

/-- Integer spelled by the first `k` parses: parse `i` contributes its `e` at bit position
`posUpTo parses i + z_i`. -/
def valUpTo (parses : List node) : Nat → Nat
  | 0 => 0
  | k + 1 =>
    valUpTo parses k + (parses.getD k default).e * 2 ^ (posUpTo parses k + (parses.getD k default).z)

/-- Length of the parse before index `k` in scan order, 0 for the first: the `l` of the
loop body of `deriveChain` at `i = k`. -/
def prevLen (parses : List node) (k : Nat) : Nat :=
  if k > 0 then (parses.getD (k - 1) default).l else 0

/-- The values `deriveChain` appends to the chain of the sequence algorithm: the successive
accumulator values. -/
def accumulatorTrace (parses : List node) : List Nat :=
  (deriveLoop parses parses.length 0 []).2

/-- A sequence algorithm without state that returns its input dictionary as the chain. -/
def identityAlgorithm : SequenceAlgorithm Unit Unit := fun s dict => ((dict, none), s)

/-- A sequence algorithm that returns its input dictionary as the chain and whose state is
the list of the dictionaries it has been handed. -/
def recordingAlgorithm : SequenceAlgorithm (List (List Nat)) Unit :=
  fun s dict => ((dict, none), s ++ [dict])

/-- A sequence algorithm that fails on every input, and returns a chain next to the error. -/
def failingAlgorithm : SequenceAlgorithm Unit Unit := fun s dict => ((dict, some ()), s)

/-- A sequence algorithm that counts from 1 to one more than its largest target. -/
def countingAlgorithm : SequenceAlgorithm Unit Unit :=
  fun s targets => ((List.range' 1 (targets.foldr max 0 + 1), none), s)

/-- Loop invariant of `buildTree`: the parses recorded so far cover the bits below the
cursor and spell them. -/
def spells (seq n b : Nat) (heap : List node) (ptrs : List Nat) : Prop :=
  b ≤ n ∧ (∀ q ∈ ptrs, q < heap.length) ∧
    posUpTo (ptrs.map (deref heap)) ptrs.length = b ∧
    valUpTo (ptrs.map (deref heap)) ptrs.length = seq % 2 ^ b


/-- A list of positive integers with 1 in which every element other than 1 is the sum of two
elements. -/
def Closed (c : List Nat) : Prop :=
  1 ∈ c ∧ (∀ v ∈ c, 0 < v) ∧ ∀ v ∈ c, v = 1 ∨ ∃ a ∈ c, ∃ b ∈ c, v = a + b


/-- Number of bits covered by the first `k` symbols of a list of symbols `(e, z, l)`. -/
def symPos (syms : List (Nat × Nat × Nat)) : Nat → Nat
  | 0 => 0
  | k + 1 => symPos syms k + ((syms.getD k (0, 0, 0)).2.1 + (syms.getD k (0, 0, 0)).2.2)

/-- Bit accounting of symbol `i` of a list of symbols for the target `seq`: the symbol starts
at `start = symPos syms i + z`, its value is the `l` bits of `seq` from `start` on, the `z`
bits below `start` are zero, bit `start` is set and `l` is at least 1. -/
def accounted (seq : Nat) (syms : List (Nat × Nat × Nat)) (i : Nat) : Prop :=
  (syms.getD i (0, 0, 0)).1 =
      seq / 2 ^ (symPos syms i + (syms.getD i (0, 0, 0)).2.1) % 2 ^ (syms.getD i (0, 0, 0)).2.2 ∧
    (∀ j, symPos syms i ≤ j → j < symPos syms i + (syms.getD i (0, 0, 0)).2.1 → Bit seq j = 0) ∧
    Bit seq (symPos syms i + (syms.getD i (0, 0, 0)).2.1) = 1 ∧
    1 ≤ (syms.getD i (0, 0, 0)).2.2

/-- Loop invariant of `buildTree` on the symbols recorded so far: they end at the cursor, there
are at most as many as bits below the cursor, and each is accounted for. -/
def tiles (seq b : Nat) (syms : List (Nat × Nat × Nat)) : Prop :=
  symPos syms syms.length = b ∧ syms.length ≤ b ∧ ∀ i < syms.length, accounted seq syms i

/-- The values of an accumulator `y` after each of `m` doublings. -/
def doublings (y m : Nat) : List Nat := (List.range m).map (fun j => y * 2 ^ (j + 1))

/-- The derivation trace in the words of the spec, for the parses with index below `k` and the
accumulator `x`: the parse at index `k - 1` adds its `e` to the accumulator, which is
recorded, then the accumulator is doubled `z + l_prev` times and recorded after each
doubling; the parses below follow. -/
def specTrace (parses : List node) : Nat → Nat → List Nat
  | 0, _ => []
  | i + 1, x =>
    let y := x + (parses.getD i default).e
    let m := (parses.getD i default).z + prevLen parses i
    (y :: doublings y m) ++ specTrace parses i (y * 2 ^ m)

/-- The bits on the path from the root to a node of the trie, as `(value, depth)`: the root
is at depth 0 and a leaf carries the value `e` and the length `l` of its symbol. -/
def label (heap : List node) (q : Nat) : Nat × Nat :=
  if q = 0 then (0, 0) else ((deref heap q).e, (deref heap q).l)

/-- The child slot of node `p` for the bit `ns`: `p.childZero` for 0, `p.childOne` otherwise. -/
def childSlot (heap : List node) (p ns : Nat) : Option Nat :=
  if ns = 0 then (deref heap p).childZero else (deref heap p).childOne

/-- The attachment at the end of the body of the outer loop of `buildTree`:
`if ns == 0 { p.childZero = leaf } else { p.childOne = leaf }`, with `q` the address of the
leaf. -/
def attach (heap : List node) (p ns q : Nat) : List node :=
  if ns = 0 then setChildZero heap p q else setChildOne heap p q

/-- The content, before the attachment, of the child slot in which the body of the outer loop
of `buildTree` attaches the new leaf, from the cursor `b`. -/
def attachedSlot (seq n b : Nat) (heap : List node) : Option Nat :=
  let bz := skipZeros seq n (n - b) b 0
  let r := descend seq n heap (n - bz.1) bz.1 0 0 0
  childSlot heap r.2.2.1 r.2.2.2

/-- A heap is a trie of symbols: a child extends the path of its parent by its bit, every
node but the root is the child of a node, no two nodes have the same path, and the value of a
path fits its depth. -/
structure IsTrie (heap : List node) : Prop where
  edges : ∀ p ns q, p < heap.length → ns < 2 → childSlot heap p ns = some q →
    0 < q ∧ q < heap.length ∧
      label heap q = ((label heap p).1 + ns * 2 ^ (label heap p).2, (label heap p).2 + 1)
  parent : ∀ q, 0 < q → q < heap.length →
    ∃ p ns, p < heap.length ∧ ns < 2 ∧ childSlot heap p ns = some q
  inj : ∀ q1 q2, q1 < heap.length → q2 < heap.length → label heap q1 = label heap q2 → q1 = q2
  bound : ∀ q, q < heap.length → (label heap q).1 < 2 ^ (label heap q).2

/-- Node `q` is a new symbol that extends an earlier one by one bit: no earlier leaf has its
value and length, and when its length is at least 2 an earlier leaf has the length less one
and the value without the last bit. -/
def newSymbol (heap : List node) (q : Nat) : Prop :=
  (∀ q1, 0 < q1 → q1 < q → label heap q1 ≠ label heap q) ∧
    (2 ≤ (label heap q).2 → ∃ q1, 0 < q1 ∧ q1 < q ∧
      label heap q1 = ((label heap q).1 % 2 ^ ((label heap q).2 - 1), (label heap q).2 - 1))

/-- Loop invariant of `buildTree` for the Lempel-Ziv property: the parses are the leaves in
the order of their addresses, every leaf but the last is a new symbol, and while the loop
goes on the last leaf is one too and the heap is a trie. -/
def lempelZiv (n b : Nat) (heap : List node) (ptrs : List Nat) : Prop :=
  1 ≤ heap.length ∧ ptrs = List.range' 1 (heap.length - 1) ∧
    (∀ q, 0 < q → q + 1 < heap.length → newSymbol heap q) ∧
    (b < n → (∀ q, 0 < q → q < heap.length → newSymbol heap q) ∧ IsTrie heap)

end yacobi

namespace ensemble

/-! ## The algorithm ensemble -/

/-- Rules of package heuristic used by `Ensemble`. -/
inductive Heuristic where
  | Halving
  | DeltaLargest
  | Approximation
deriving DecidableEq, Repr

/-- Sequence algorithms built by `Ensemble`: `heuristic.NewAlgorithm(heuristic.UseFirst(...))`
with its rules in order, and `contfrac.NewAlgorithm(strategy)`.  The type `ι` is the type of
the strategies of package contfrac. -/
inductive SequenceAlgorithm (ι : Type) where
  | heuristic (useFirst : List Heuristic)
  | contfrac (strategy : ι)
deriving DecidableEq, Repr

/-- Decomposers of package dict with their parameters; a field that the Go literal leaves out
has the zero value. -/
inductive Decomposer where
  | SlidingWindow (K Z : Nat) (S : Bool)
  | RunLength (T : Nat)
  | Hybrid (K Z T : Nat) (S : Bool)
deriving DecidableEq, Repr

/-- Chain algorithms built by `Ensemble`: `dict.NewAlgorithm(decomp, seqalg)`,
`dict.NewRunsAlgorithm(seqalg)` and the optimization layer `opt.Algorithm{Algorithm: a}`. -/
inductive ChainAlgorithm (ι : Type) where
  | dict (decomp : Decomposer) (seqalg : SequenceAlgorithm ι)
  | runs (seqalg : SequenceAlgorithm ι)
  | opt (a : ChainAlgorithm ι)
deriving DecidableEq, Repr

/-- Counting loop `for k := k0; k <= hi; k = next k { body }` over a loop state `acc`.  The
first argument bounds the trip count; the call sites pass `hi + 1`. -/
def forLoop {α : Type} (hi : Nat) (next : Nat → Nat) (body : Nat → α → α) : Nat → Nat → α → α
  | 0, _, acc => acc
  | fuel + 1, k, acc =>
    if k ≤ hi then forLoop hi next body fuel (next k) (body k acc) else acc

/-- The decomposers of `Ensemble`, in the order they are appended. -/
def decomposers : List Decomposer :=
  let decomposers : List Decomposer := []
  let decomposers := forLoop 128 (fun k => k * 2) (fun k decomposers =>
    let decomposers := decomposers ++ [Decomposer.SlidingWindow k 0 false]
    let decomposers := decomposers ++ [Decomposer.SlidingWindow k 0 true]
    decomposers ++ [Decomposer.SlidingWindow k (k / 2) true]) 129 4 decomposers
  let decomposers := decomposers ++ [Decomposer.RunLength 0]
  let decomposers := forLoop 128 (fun t => t * 2) (fun t decomposers =>
    decomposers ++ [Decomposer.RunLength t]) 129 16 decomposers
  let decomposers := forLoop 8 (fun k => k + 1) (fun k decomposers =>
    let decomposers := decomposers ++ [Decomposer.Hybrid k 0 0 false]
    let decomposers := decomposers ++ [Decomposer.Hybrid k 0 0 true]
    let decomposers := decomposers ++ [Decomposer.Hybrid k (k / 2) 0 true]
    forLoop 64 (fun t => t * 2) (fun t decomposers =>
      let decomposers := decomposers ++ [Decomposer.Hybrid k 0 t false]
      decomposers ++ [Decomposer.Hybrid k (k / 2) t true]) 65 16 decomposers) 9 2 decomposers
  let decomposers := forLoop 20 (fun k => k + 2) (fun k decomposers =>
    forLoop 10 (fun ti => ti + 2) (fun ti decomposers =>
      let t := k + ti
      decomposers ++ [Decomposer.Hybrid k (k / 2) t true]) 11 0 decomposers) 21 10 decomposers
  decomposers

/-- The sequence algorithms of `Ensemble`: the two heuristic ones, then one per singleton
strategy of the catalog `contfrac.Strategies`, which is a parameter here. -/
def seqalgs {ι : Type} (Strategies : List ι) (Singleton : ι → Bool) :
    List (SequenceAlgorithm ι) :=
  let seqalgs : List (SequenceAlgorithm ι) := [
    SequenceAlgorithm.heuristic [Heuristic.Halving, Heuristic.DeltaLargest],
    SequenceAlgorithm.heuristic [Heuristic.Halving, Heuristic.Approximation]]
  Strategies.foldl (fun seqalgs strategy =>
    if Singleton strategy then seqalgs ++ [SequenceAlgorithm.contfrac strategy] else seqalgs)
    seqalgs

/-- The optimization loop `for i, a := range as { as[i] = opt.Algorithm{Algorithm: a} }`. -/
def wrapAll {ι : Type} (as : List (ChainAlgorithm ι)) : List (ChainAlgorithm ι) :=
  (List.range as.length).foldl (fun as i =>
    match as.get? i with
    | some a => as.set i (ChainAlgorithm.opt a)
    | none => as) as

/-- Build the ensemble of chain algorithms. -/
def Ensemble {ι : Type} (Strategies : List ι) (Singleton : ι → Bool) :
    List (ChainAlgorithm ι) :=
  let seqalgs := seqalgs Strategies Singleton
  let decomposers := decomposers
  let as : List (ChainAlgorithm ι) := []
  let as := decomposers.foldl (fun as decomp =>
    seqalgs.foldl (fun as seqalg => as ++ [ChainAlgorithm.dict decomp seqalg]) as) as
  let as := seqalgs.foldl (fun as seqalg => as ++ [ChainAlgorithm.runs seqalg]) as
  wrapAll as

/-- Family test: sliding-window decomposer. -/
def Decomposer.isSlidingWindow : Decomposer → Bool
  | Decomposer.SlidingWindow _ _ _ => true
  | _ => false

/-- Family test: run-length decomposer. -/
def Decomposer.isRunLength : Decomposer → Bool
  | Decomposer.RunLength _ => true
  | _ => false

/-- Family test: hybrid decomposer with `lo ≤ K ≤ hi`, and even `K` when `even` is set. -/
def Decomposer.isHybrid (lo hi : Nat) (even : Bool) : Decomposer → Bool
  | Decomposer.Hybrid k _ _ _ => decide (lo ≤ k) && decide (k ≤ hi) && (!even || k % 2 == 0)
  | _ => false

/-- Test that half the width `K` of a sliding-window or hybrid decomposer, the value of `Z` in
the variants with a zero cutoff, is at least 1. -/
def Decomposer.halfWidthPositive : Decomposer → Bool
  | Decomposer.SlidingWindow k _ _ => decide (1 ≤ k / 2)
  | Decomposer.RunLength _ => true
  | Decomposer.Hybrid k _ _ _ => decide (1 ≤ k / 2)

end ensemble

namespace yacobi

/-! ## Integers -/

theorem bitLenAux_lt : ∀ fuel x : Nat, x ≤ fuel → x < 2 ^ bitLenAux fuel x := by
  intro fuel
  induction fuel with
  | zero =>
    intro x hx
    simp [bitLenAux]
    omega
  | succ fuel ih =>
    intro x hx
    unfold bitLenAux
    split
    · subst_vars; simp
    · have h2 : x / 2 ≤ fuel := by omega
      have := ih (x / 2) h2
      rw [pow_succ]
      omega

theorem lt_two_pow_BitLen (x : Nat) : x < 2 ^ BitLen x :=
  bitLenAux_lt x x (le_refl x)

theorem bitLenAux_le : ∀ fuel x : Nat, bitLenAux fuel x ≠ 0 → 2 ^ (bitLenAux fuel x - 1) ≤ x := by
  intro fuel
  induction fuel with
  | zero => intro x h; simp [bitLenAux] at h
  | succ fuel ih =>
    intro x h
    unfold bitLenAux at h ⊢
    split
    · rename_i h0
      simp [h0] at h
    · rename_i h0
      simp only [Nat.add_sub_cancel]
      by_cases hz : bitLenAux fuel (x / 2) = 0
      · rw [hz]
        simp
        omega
      · have h1 := ih (x / 2) hz
        have h2 : bitLenAux fuel (x / 2) = (bitLenAux fuel (x / 2) - 1) + 1 := by omega
        rw [h2, pow_succ]
        omega

/-- The bit length of this development is the bit length of the library. -/
theorem BitLen_eq_size (x : Nat) : BitLen x = Nat.size x := by
  apply le_antisymm
  · by_cases h : BitLen x = 0
    · omega
    · have h1 := bitLenAux_le x x h
      have h2 : BitLen x - 1 < Nat.size x := Nat.lt_size.mpr h1
      omega
  · exact Nat.size_le.mpr (lt_two_pow_BitLen x)

theorem mod_two_pow_succ_of_Bit (seq b : Nat) (h : Bit seq b = 0) :
    seq % 2 ^ (b + 1) = seq % 2 ^ b := by
  unfold Bit at h
  rw [Nat.mod_pow_succ, h]
  simp

/-! ## The loops of buildTree -/

theorem skipZeros_spec (seq n : Nat) : ∀ fuel b z : Nat,
    b ≤ (skipZeros seq n fuel b z).1 ∧
    (skipZeros seq n fuel b z).1 + z = b + (skipZeros seq n fuel b z).2 ∧
    seq % 2 ^ (skipZeros seq n fuel b z).1 = seq % 2 ^ b ∧
    (b ≤ n → (skipZeros seq n fuel b z).1 ≤ n) := by
  intro fuel
  induction fuel with
  | zero => intro b z; simp [skipZeros]
  | succ fuel ih =>
    intro b z
    unfold skipZeros
    split
    · rename_i h
      obtain ⟨h1, h2, h3, h4⟩ := ih (b + 1) (z + 1)
      refine ⟨by omega, by omega, ?_, fun _ => h4 (by omega)⟩
      rw [h3]
      exact mod_two_pow_succ_of_Bit seq b h.2
    · simp

/-- A larger bound on the trip count of the zero-skipping loop gives the same result. -/
theorem skipZeros_fuel (seq n : Nat) : ∀ fuel b z extra : Nat, n - b ≤ fuel →
    skipZeros seq n (fuel + extra) b z = skipZeros seq n fuel b z := by
  intro fuel
  induction fuel with
  | zero =>
    intro b z extra h
    cases extra with
    | zero => rfl
    | succ extra =>
      have hb : ¬ (b < n ∧ Bit seq b = 0) := by omega
      simp only [Nat.zero_add, skipZeros, hb, if_false]
  | succ fuel ih =>
    intro b z extra h
    have e : fuel + 1 + extra = (fuel + extra) + 1 := by omega
    rw [e]
    unfold skipZeros
    split
    · exact ih (b + 1) (z + 1) extra (by omega)
    · rfl

theorem descend_spec (seq n : Nat) (heap : List node) : ∀ fuel b l p ns : Nat,
    b ≤ (descend seq n heap fuel b l p ns).1 ∧
    (descend seq n heap fuel b l p ns).1 + l = b + (descend seq n heap fuel b l p ns).2.1 ∧
    (b ≤ n → (descend seq n heap fuel b l p ns).1 ≤ n) ∧
    (b < n → 0 < fuel → b < (descend seq n heap fuel b l p ns).1) := by
  intro fuel
  induction fuel with
  | zero => intro b l p ns; simp [descend]
  | succ fuel ih =>
    intro b l p ns
    unfold descend
    split
    · rename_i h
      refine ⟨le_refl _, rfl, fun _ => by assumption, fun h1 => ?_⟩
      omega
    · rename_i h
      simp only []
      split
      · split
        · refine ⟨by simp, by simp; omega, fun _ => by simp; omega, fun _ _ => by simp⟩
        · rename_i q _
          obtain ⟨h1, h2, h3, _⟩ := ih (b + 1) (l + 1) q (Bit seq b)
          exact ⟨by omega, by omega, fun _ => h3 (by omega), fun _ _ => by omega⟩
      · split
        · refine ⟨by simp, by simp; omega, fun _ => by simp; omega, fun _ _ => by simp⟩
        · rename_i q _
          obtain ⟨h1, h2, h3, _⟩ := ih (b + 1) (l + 1) q (Bit seq b)
          exact ⟨by omega, by omega, fun _ => h3 (by omega), fun _ _ => by omega⟩

/-- A larger bound on the trip count of the descent loop gives the same result. -/
theorem descend_fuel (seq n : Nat) (heap : List node) : ∀ fuel b l p ns extra : Nat,
    n - b ≤ fuel →
    descend seq n heap (fuel + extra) b l p ns = descend seq n heap fuel b l p ns := by
  intro fuel
  induction fuel with
  | zero =>
    intro b l p ns extra h
    cases extra with
    | zero => rfl
    | succ extra =>
      have hb : b ≥ n := by omega
      simp only [Nat.zero_add, descend, hb, if_true]
  | succ fuel ih =>
    intro b l p ns extra h
    have e : fuel + 1 + extra = (fuel + extra) + 1 := by omega
    rw [e]
    unfold descend
    split
    · rfl
    · simp only []
      split
      · split
        · rfl
        · exact ih _ _ _ _ extra (by omega)
      · split
        · rfl
        · exact ih _ _ _ _ extra (by omega)


/-! ## The heap -/

theorem deref_set (heap : List node) (p i : Nat) (v : node) :
    deref (heap.set p v) i = if p = i ∧ p < heap.length then v else deref heap i := by
  unfold deref
  rw [List.getD_eq_getElem?_getD, List.getD_eq_getElem?_getD, List.getElem?_set]
  by_cases h1 : p = i
  · subst h1
    by_cases h2 : p < heap.length
    · simp [h2]
    · have hnone : heap[p]? = none := List.getElem?_eq_none (by omega)
      simp [h2, hnone]
  · simp [h1]

theorem symbol_deref_setChildZero (heap : List node) (p q i : Nat) :
    symbol (deref (setChildZero heap p q) i) = symbol (deref heap i) := by
  unfold setChildZero
  rw [deref_set]
  split
  · rename_i h
    rw [← h.1]
    rfl
  · rfl

theorem symbol_deref_setChildOne (heap : List node) (p q i : Nat) :
    symbol (deref (setChildOne heap p q) i) = symbol (deref heap i) := by
  unfold setChildOne
  rw [deref_set]
  split
  · rename_i h
    rw [← h.1]
    rfl
  · rfl

theorem deref_append_left (heap : List node) (x : node) (i : Nat) (h : i < heap.length) :
    deref (heap ++ [x]) i = deref heap i := by
  unfold deref
  exact List.getD_append heap [x] default i h

theorem deref_append_length (heap : List node) (x : node) :
    deref (heap ++ [x]) heap.length = x := by
  unfold deref
  rw [List.getD_append_right heap [x] default heap.length (le_refl _)]
  simp

/-- What one iteration of the outer loop of `buildTree` does to the loop state. -/
theorem buildStep_some (seq n b : Nat) (heap : List node) (ptrs : List Nat)
    (st : Nat × List node × List Nat)
    (h : buildStep seq n b heap ptrs = some st) :
    ∃ z l : Nat, b + z < n ∧ st.1 = b + z + l ∧ 0 < l ∧ st.1 ≤ n ∧
      seq % 2 ^ (b + z) = seq % 2 ^ b ∧
      st.2.2 = ptrs ++ [heap.length] ∧ st.2.1.length = heap.length + 1 ∧
      (∀ i < heap.length, symbol (deref st.2.1 i) = symbol (deref heap i)) ∧
      symbol (deref st.2.1 heap.length) = (Extract seq (b + z) st.1, z, l) := by
  unfold buildStep at h
  simp only [] at h
  split at h
  · exact absurd h (by simp)
  · rename_i hlt
    obtain ⟨s1, s2, s3, s4⟩ := skipZeros_spec seq n (n - b) b 0
    generalize skipZeros seq n (n - b) b 0 = bz at *
    obtain ⟨d1, d2, d3, d4⟩ := descend_spec seq n heap (n - bz.1) bz.1 0 0 0
    generalize descend seq n heap (n - bz.1) bz.1 0 0 0 = r at *
    have hb1 : bz.1 = b + bz.2 := by omega
    injection h with h
    subst h
    refine ⟨bz.2, r.2.1, by omega, by simp only []; omega, ?_, ?_, ?_, rfl, ?_, ?_, ?_⟩
    · have := d4 (by omega) (by omega)
      omega
    · exact d3 (by omega)
    · rw [← hb1]; exact s3
    · simp only []
      split
      · simp [setChildZero]
      · simp [setChildOne]
    · intro i hi
      simp only []
      split
      · rw [symbol_deref_setChildZero, deref_append_left _ _ _ hi]
      · rw [symbol_deref_setChildOne, deref_append_left _ _ _ hi]
    · simp only []
      rw [← hb1]
      split
      · rw [symbol_deref_setChildZero, deref_append_length]; rfl
      · rw [symbol_deref_setChildOne, deref_append_length]; rfl

/-- Induction over the outer loop of `buildTree`: a property of the loop state that every
iteration preserves holds when the loop ends, and the loop ends by its own exits. -/
theorem buildLoop_induction (seq n : Nat) (I : Nat → List node → List Nat → Prop)
    (hstep : ∀ (b : Nat) (heap : List node) (ptrs : List Nat) (st : Nat × List node × List Nat),
      I b heap ptrs → b < n → buildStep seq n b heap ptrs = some st → I st.1 st.2.1 st.2.2) :
    ∀ (fuel b : Nat) (heap : List node) (ptrs : List Nat), I b heap ptrs → n - b ≤ fuel →
      ∃ b1 : Nat, I b1 (buildLoop seq n fuel b heap ptrs).1 (buildLoop seq n fuel b heap ptrs).2 ∧
        (n ≤ b1 ∨ buildStep seq n b1 (buildLoop seq n fuel b heap ptrs).1
          (buildLoop seq n fuel b heap ptrs).2 = none) := by
  intro fuel
  induction fuel with
  | zero =>
    intro b heap ptrs hI hf
    exact ⟨b, hI, Or.inl (by omega)⟩
  | succ fuel ih =>
    intro b heap ptrs hI hf
    unfold buildLoop
    split
    · rename_i hb
      split
      · rename_i hnone
        exact ⟨b, hI, Or.inr hnone⟩
      · rename_i st hsome
        obtain ⟨z, l, _, h2, h3, _⟩ := buildStep_some seq n b heap ptrs st hsome
        exact ih st.1 st.2.1 st.2.2 (hstep b heap ptrs st hI hb hsome) (by omega)
    · exact ⟨b, hI, Or.inl (by omega)⟩

/-- A larger bound on the trip count of the outer loop gives the same result. -/
theorem buildLoop_fuel (seq n : Nat) : ∀ (fuel b : Nat) (heap : List node) (ptrs : List Nat)
    (extra : Nat), n - b ≤ fuel →
    buildLoop seq n (fuel + extra) b heap ptrs = buildLoop seq n fuel b heap ptrs := by
  intro fuel
  induction fuel with
  | zero =>
    intro b heap ptrs extra h
    cases extra with
    | zero => rfl
    | succ extra =>
      have hb : ¬ b < n := by omega
      simp only [Nat.zero_add, buildLoop, hb, if_false]
  | succ fuel ih =>
    intro b heap ptrs extra h
    have e : fuel + 1 + extra = (fuel + extra) + 1 := by omega
    rw [e]
    unfold buildLoop
    split
    · rename_i hb
      split
      · rfl
      · rename_i st hsome
        obtain ⟨z, l, _, h2, h3, _⟩ := buildStep_some seq n b heap ptrs st hsome
        exact ih st.1 st.2.1 st.2.2 extra (by omega)
    · rfl


/-! ## The parses spell the target -/

theorem symbol_eq_iff (a b : node) :
    symbol a = symbol b ↔ a.e = b.e ∧ a.z = b.z ∧ a.l = b.l := by
  unfold symbol
  simp [Prod.ext_iff]

theorem upTo_congr (ps qs : List node) : ∀ k : Nat,
    (∀ i < k, symbol (ps.getD i default) = symbol (qs.getD i default)) →
    posUpTo ps k = posUpTo qs k ∧ valUpTo ps k = valUpTo qs k := by
  intro k
  induction k with
  | zero => intro _; exact ⟨rfl, rfl⟩
  | succ k ih =>
    intro h
    obtain ⟨h1, h2⟩ := ih (fun i hi => h i (by omega))
    obtain ⟨he, hz, hl⟩ := (symbol_eq_iff _ _).mp (h k (by omega))
    simp only [posUpTo, valUpTo, h1, h2, he, hz, hl, and_self]

theorem mod_two_pow_add (x a l : Nat) :
    x % 2 ^ (a + l) = x % 2 ^ a + x / 2 ^ a % 2 ^ l * 2 ^ a := by
  rw [pow_add, Nat.mod_mul, Nat.mul_comm]

theorem spells_step (seq n b : Nat) (heap : List node) (ptrs : List Nat)
    (st : Nat × List node × List Nat) (hI : spells seq n b heap ptrs)
    (h : buildStep seq n b heap ptrs = some st) : spells seq n st.1 st.2.1 st.2.2 := by
  obtain ⟨z, l, h1, h2, h3, h4, h5, h6, h7, h8, h9⟩ := buildStep_some seq n b heap ptrs st h
  obtain ⟨i1, i2, i3, i4⟩ := hI
  obtain ⟨b1, heap1, ptrs1⟩ := st
  simp only [] at h2 h4 h6 h7 h8 h9
  subst h6
  have hold : ∀ i < ptrs.length,
      symbol (((ptrs ++ [heap.length]).map (deref heap1)).getD i default) =
      symbol ((ptrs.map (deref heap)).getD i default) := by
    intro i hi
    rw [List.map_append, List.getD_append _ _ _ _ (by simpa using hi),
      List.getD_eq_getElem _ _ (by simpa using hi), List.getD_eq_getElem _ _ (by simpa using hi)]
    simp only [List.getElem_map]
    exact h8 _ (i2 _ (List.getElem_mem _))
  have hnew : ((ptrs ++ [heap.length]).map (deref heap1)).getD ptrs.length default =
      deref heap1 heap.length := by
    rw [List.map_append, List.getD_append_right _ _ _ _ (by simp)]
    simp
  obtain ⟨c1, c2⟩ := upTo_congr _ _ ptrs.length hold
  obtain ⟨he, hz, hl⟩ : (deref heap1 heap.length).e = Extract seq (b + z) b1 ∧
      (deref heap1 heap.length).z = z ∧ (deref heap1 heap.length).l = l := by
    have := h9
    unfold symbol at this
    simpa [Prod.ext_iff] using this
  refine ⟨h4, ?_, ?_, ?_⟩
  · intro q hq
    simp only []
    rw [h7]
    rcases List.mem_append.mp hq with hq | hq
    · have := i2 q hq
      omega
    · simp at hq
      omega
  · simp only [List.length_append, List.length_singleton, posUpTo, hnew, c1, i3, hz, hl]
    omega
  · simp only [List.length_append, List.length_singleton, valUpTo, hnew, c1, c2, i3, i4, he, hz]
    have e1 : b1 = (b + z) + l := h2
    rw [e1, mod_two_pow_add, ← h5]
    unfold Extract
    simp

theorem buildStep_none (seq n b : Nat) (heap : List node) (ptrs : List Nat)
    (hseq : seq < 2 ^ n) (h : buildStep seq n b heap ptrs = none) : seq % 2 ^ b = seq := by
  unfold buildStep at h
  simp only [] at h
  split at h
  · rename_i hge
    obtain ⟨_, _, s3, _⟩ := skipZeros_spec seq n (n - b) b 0
    rw [← s3]
    apply Nat.mod_eq_of_lt
    exact lt_of_lt_of_le hseq (Nat.pow_le_pow_right (by omega) hge)
  · exact absurd h (by simp)

/-- The parses of `buildTree` spell the target: each parse contributes its value `e` at the
bit position where its symbol starts. -/
theorem valUpTo_buildTree (seq : Nat) :
    valUpTo (buildTree seq) (buildTree seq).length = seq := by
  have hI : spells seq (BitLen seq) 0 [⟨One, 0, 0, none, none⟩] [] := by
    refine ⟨Nat.zero_le _, by simp, rfl, ?_⟩
    simp [valUpTo, Nat.mod_one]
  obtain ⟨b1, ⟨i1, _, _, i4⟩, hexit⟩ :=
    buildLoop_induction seq (BitLen seq) (spells seq (BitLen seq))
      (fun b heap ptrs st hI _ h => spells_step seq _ b heap ptrs st hI h)
      (BitLen seq) 0 [⟨One, 0, 0, none, none⟩] [] hI (by omega)
  have hlen : (buildTree seq).length = (buildTreeState seq).2.length := by
    simp [buildTree]
  rw [hlen]
  show valUpTo (List.map (deref (buildTreeState seq).1) (buildTreeState seq).2) _ = seq
  unfold buildTreeState
  simp only []
  rw [i4]
  rcases hexit with hge | hnone
  · have : b1 = BitLen seq := by omega
    rw [this]
    exact Nat.mod_eq_of_lt (lt_two_pow_BitLen seq)
  · exact buildStep_none seq _ b1 _ _ (lt_two_pow_BitLen seq) hnone

/-! ## The accumulator -/

theorem shiftLoop_fst : ∀ (j x : Nat) (c : List Nat), (shiftLoop j x c).1 = x * 2 ^ j := by
  intro j
  induction j with
  | zero => intro x c; simp [shiftLoop]
  | succ j ih =>
    intro x c
    unfold shiftLoop
    simp only []
    rw [ih, Nat.shiftLeft_eq, pow_succ]
    ring

/-- The accumulator after the iterations `i = k - 1, ..., 0` of the main loop of
`deriveChain`. -/
theorem deriveLoop_fst (parses : List node) : ∀ (k y : Nat) (c : List Nat),
    (deriveLoop parses k (y * 2 ^ prevLen parses k) c).1 =
      y * 2 ^ posUpTo parses k + valUpTo parses k := by
  intro k
  induction k with
  | zero => intro y c; simp [deriveLoop, prevLen, posUpTo, valUpTo]
  | succ k ih =>
    intro y c
    unfold deriveLoop
    simp only []
    rw [shiftLoop_fst]
    have hp : prevLen parses (k + 1) = (parses.getD k default).l := by simp [prevLen]
    have hq : (if k > 0 then (parses.getD (k - 1) default).l else 0) = prevLen parses k := rfl
    rw [hp, hq]
    have e1 : (y * 2 ^ (parses.getD k default).l + (parses.getD k default).e) *
        2 ^ ((parses.getD k default).z + prevLen parses k) =
        ((y * 2 ^ (parses.getD k default).l + (parses.getD k default).e) *
          2 ^ (parses.getD k default).z) * 2 ^ prevLen parses k := by
      rw [pow_add]; ring
    rw [e1, ih]
    simp only [posUpTo, valUpTo, pow_add]
    ring


/-! ## Chains closed under derivation -/

theorem IsAddChain.pos {c : List Nat} (h : IsAddChain c) :
    ∀ i : Nat, i < c.length → 0 < c.getD i 0 := by
  intro i
  induction i using Nat.strong_induction_on with
  | _ i ih =>
    intro hi
    rcases Nat.eq_zero_or_pos i with h0 | hpos
    · subst h0
      obtain ⟨hh, _⟩ := h
      cases c with
      | nil => simp at hi
      | cons a t =>
        simp at hh
        simp [hh]
    · obtain ⟨j, hj, k, hk, e⟩ := h.2 i hi hpos
      have := ih j hj (by omega)
      omega

theorem IsAddChain.closed {c : List Nat} (h : IsAddChain c) : Closed c := by
  refine ⟨?_, ?_, ?_⟩
  · obtain ⟨hh, _⟩ := h
    cases c with
    | nil => simp at hh
    | cons a t =>
      simp at hh
      simp [hh]
  · intro v hv
    obtain ⟨i, hi, e⟩ := List.mem_iff_getElem.mp hv
    have := h.pos i hi
    rw [List.getD_eq_getElem _ _ hi, e] at this
    exact this
  · intro v hv
    obtain ⟨i, hi, e⟩ := List.mem_iff_getElem.mp hv
    rcases Nat.eq_zero_or_pos i with h0 | hpos
    · left
      subst h0
      obtain ⟨hh, _⟩ := h
      cases c with
      | nil => simp at hi
      | cons a t =>
        simp at hh e
        omega
    · right
      obtain ⟨j, hj, k, hk, e2⟩ := h.2 i hi hpos
      have hj2 : j < c.length := by omega
      have hk2 : k < c.length := by omega
      rw [List.getD_eq_getElem _ _ hi, List.getD_eq_getElem _ _ hj2,
        List.getD_eq_getElem _ _ hk2, e] at e2
      exact ⟨_, List.getElem_mem hj2, _, List.getElem_mem hk2, e2⟩

/-- A strictly ascending list with the elements of a closed list is an addition chain. -/
theorem Closed.isAddChain {c L : List Nat} (h : Closed c) (hs : L.Sorted (fun a b => a < b))
    (hm : ∀ v, v ∈ L ↔ v ∈ c) : IsAddChain L := by
  obtain ⟨h1, hpos, hsum⟩ := h
  have hpw := List.pairwise_iff_getElem.mp hs
  have hidx : ∀ (i j : Nat) (hi : i < L.length) (hj : j < L.length), L[j] < L[i] → j < i := by
    intro i j hi hj hlt
    by_contra hcon
    rcases Nat.lt_or_ge i j with hij | hij
    · have := hpw i j hi hj hij
      omega
    · have : i = j := by omega
      subst this
      omega
  have hlen : 0 < L.length := List.length_pos_of_mem ((hm 1).mpr h1)
  have hhead : L[0] = 1 := by
    obtain ⟨i, hi, e⟩ := List.mem_iff_getElem.mp ((hm 1).mpr h1)
    rcases Nat.eq_zero_or_pos i with h0 | hipos
    · subst h0; exact e
    · have h2 := hpw 0 i hlen hi hipos
      have h3 := hpos _ ((hm _).mp (List.getElem_mem hlen))
      omega
  refine ⟨?_, ?_⟩
  · cases L with
    | nil => simp at hlen
    | cons a t => simpa using hhead
  · intro i hi hipos
    have hgt : 1 < L[i] := by
      have := hpw 0 i hlen hi hipos
      omega
    rcases hsum _ ((hm _).mp (List.getElem_mem hi)) with h1 | ⟨a, ha, b, hb, e⟩
    · omega
    · obtain ⟨j, hj, ej⟩ := List.mem_iff_getElem.mp ((hm a).mpr ha)
      obtain ⟨k, hk, ek⟩ := List.mem_iff_getElem.mp ((hm b).mpr hb)
      have hapos := hpos a ha
      have hbpos := hpos b hb
      refine ⟨j, hidx i j hi hj (by omega), k, hidx i k hi hk (by omega), ?_⟩
      rw [List.getD_eq_getElem _ _ hi, List.getD_eq_getElem _ _ hj,
        List.getD_eq_getElem _ _ hk, ej, ek]
      exact e

theorem Closed.append {c : List Nat} (h : Closed c) (v : Nat)
    (hv : v ∈ c ∨ ∃ a ∈ c, ∃ b ∈ c, v = a + b) : Closed (AppendClone c v) := by
  obtain ⟨h1, hpos, hsum⟩ := h
  unfold AppendClone
  refine ⟨by simp [h1], ?_, ?_⟩
  · intro w hw
    rcases List.mem_append.mp hw with hw | hw
    · exact hpos w hw
    · simp at hw
      subst hw
      rcases hv with hv | ⟨a, ha, b, hb, e⟩
      · exact hpos _ hv
      · have := hpos a ha
        omega
  · intro w hw
    have lift : ∀ u, (u = 1 ∨ ∃ a ∈ c, ∃ b ∈ c, u = a + b) →
        (u = 1 ∨ ∃ a ∈ c ++ [v], ∃ b ∈ c ++ [v], u = a + b) := by
      intro u hu
      rcases hu with hu | ⟨a, ha, b, hb, e⟩
      · exact Or.inl hu
      · exact Or.inr ⟨a, List.mem_append_left _ ha, b, List.mem_append_left _ hb, e⟩
    rcases List.mem_append.mp hw with hw | hw
    · exact lift w (hsum w hw)
    · simp at hw
      subst hw
      rcases hv with hv | hv
      · exact lift _ (hsum _ hv)
      · exact lift _ (Or.inr hv)

theorem shiftLoop_closed : ∀ (j x : Nat) (c : List Nat), Closed c → x ∈ c →
    Closed (shiftLoop j x c).2 ∧ (shiftLoop j x c).1 ∈ (shiftLoop j x c).2 ∧
      ∀ v ∈ c, v ∈ (shiftLoop j x c).2 := by
  intro j
  induction j with
  | zero => intro x c hc hx; exact ⟨hc, hx, fun v hv => hv⟩
  | succ j ih =>
    intro x c hc hx
    unfold shiftLoop
    simp only []
    have e : x <<< 1 = x + x := by rw [Nat.shiftLeft_eq]; omega
    have hc2 : Closed (AppendClone c (x <<< 1)) :=
      hc.append _ (Or.inr ⟨x, hx, x, hx, e⟩)
    have hx2 : x <<< 1 ∈ AppendClone c (x <<< 1) := by simp [AppendClone]
    obtain ⟨r1, r2, r3⟩ := ih (x <<< 1) _ hc2 hx2
    exact ⟨r1, r2, fun v hv => r3 v (by simp [AppendClone, hv])⟩

theorem deriveLoop_closed (parses : List node) : ∀ (k x : Nat) (c : List Nat), Closed c →
    (x = 0 ∨ x ∈ c) → (∀ i < k, (parses.getD i default).e ∈ c) →
    Closed (deriveLoop parses k x c).2 ∧
      (0 < k → (deriveLoop parses k x c).1 ∈ (deriveLoop parses k x c).2) ∧
      ((deriveLoop parses k x c).1 = x ∨
        (deriveLoop parses k x c).1 ∈ (deriveLoop parses k x c).2) ∧
      ∀ v ∈ c, v ∈ (deriveLoop parses k x c).2 := by
  intro k
  induction k with
  | zero =>
    intro x c hc hx he
    exact ⟨hc, fun h => absurd h (by omega), Or.inl rfl, fun v hv => hv⟩
  | succ k ih =>
    intro x c hc hx he
    unfold deriveLoop
    simp only []
    have hek := he k (by omega)
    have hc2 : Closed (AppendClone c (x + (parses.getD k default).e)) := by
      apply hc.append
      rcases hx with hx | hx
      · left; rw [hx, Nat.zero_add]; exact hek
      · right; exact ⟨x, hx, _, hek, rfl⟩
    have hx2 : x + (parses.getD k default).e ∈
        AppendClone c (x + (parses.getD k default).e) := by simp [AppendClone]
    obtain ⟨s1, s2, s3⟩ := shiftLoop_closed
      ((parses.getD k default).z + if k > 0 then (parses.getD (k - 1) default).l else 0)
      _ _ hc2 hx2
    have sub : ∀ v ∈ c, v ∈ (shiftLoop
        ((parses.getD k default).z + if k > 0 then (parses.getD (k - 1) default).l else 0)
        (x + (parses.getD k default).e)
        (AppendClone c (x + (parses.getD k default).e))).2 :=
      fun v hv => s3 v (by simp [AppendClone, hv])
    obtain ⟨r1, _, r3, r4⟩ := ih _ _ s1 (Or.inr s2)
      (fun i hi => sub _ (he i (by omega)))
    refine ⟨r1, fun _ => ?_, Or.inr ?_, fun v hv => r4 v (sub v hv)⟩
    · rcases r3 with r3 | r3
      · rw [r3]; exact r4 _ s2
      · exact r3
    · rcases r3 with r3 | r3
      · rw [r3]; exact r4 _ s2
      · exact r3


/-! ## Sorting and deduplication -/

theorem mem_Unique_SortAscending (c : List Nat) (v : Nat) :
    v ∈ Unique (SortAscending c) ↔ v ∈ c := by
  unfold Unique SortAscending
  rw [List.mem_dedup, List.mem_insertionSort]

theorem sorted_Unique_SortAscending (c : List Nat) :
    (Unique (SortAscending c)).Sorted (fun a b => a < b) := by
  unfold Unique SortAscending
  have h1 : (c.insertionSort (fun a b => a ≤ b)).Sorted (fun a b => a ≤ b) :=
    List.sorted_insertionSort _ c
  have h2 : (c.insertionSort (fun a b => a ≤ b)).dedup.Sorted (fun a b => a ≤ b) :=
    List.Pairwise.sublist (List.dedup_sublist _) h1
  exact h2.lt_of_le (List.nodup_dedup _)

/-- Strictly ascending lists with the same elements are equal. -/
theorem eq_of_sorted_of_mem {xs ys : List Nat} (hx : xs.Sorted (fun a b => a < b))
    (hy : ys.Sorted (fun a b => a < b)) (h : ∀ v, v ∈ xs ↔ v ∈ ys) : xs = ys := by
  have hp : xs.Perm ys :=
    (List.perm_ext_iff_of_nodup hx.nodup hy.nodup).mpr h
  exact List.eq_of_perm_of_sorted hp hx hy

theorem getLast?_of_sorted : ∀ (xs : List Nat) (m : Nat), xs.Sorted (fun a b => a < b) →
    m ∈ xs → (∀ v ∈ xs, v ≤ m) → xs.getLast? = some m := by
  intro xs
  induction xs with
  | nil => intro m _ hm _; simp at hm
  | cons a t ih =>
    intro m hs hm hle
    cases t with
    | nil =>
      simp at hm
      simp [hm]
    | cons b u =>
      have hs2 := List.pairwise_cons.mp hs
      have hmt : m ∈ b :: u := by
        rcases List.mem_cons.mp hm with h | h
        · have h1 := hs2.1 b (List.mem_cons_self _ _)
          have h2 := hle b (by simp)
          omega
        · exact h
      have := ih m hs2.2 hmt (fun v hv => hle v (List.mem_cons_of_mem _ hv))
      rw [List.getLast?_cons_cons]
      exact this

theorem mem_dictionary (parses : List node) (v : Nat) :
    v ∈ dictionary parses ↔ ∃ p ∈ parses, p.e = v := by
  unfold dictionary
  rw [mem_Unique_SortAscending, List.mem_map]

theorem getD_mem_dictionary (parses : List node) (i : Nat) (hi : i < parses.length) :
    (parses.getD i default).e ∈ dictionary parses := by
  rw [mem_dictionary, List.getD_eq_getElem _ _ hi]
  exact ⟨_, List.getElem_mem hi, rfl⟩

/-! ## The chain of deriveChain -/

theorem shiftLoop_append : ∀ (j x : Nat) (c : List Nat),
    shiftLoop j x c = ((shiftLoop j x []).1, c ++ (shiftLoop j x []).2) := by
  intro j
  induction j with
  | zero => intro x c; simp [shiftLoop]
  | succ j ih =>
    intro x c
    unfold shiftLoop
    simp only []
    rw [ih (x <<< 1) (AppendClone c (x <<< 1)), ih (x <<< 1) (AppendClone [] (x <<< 1))]
    simp [AppendClone]

/-- The main loop of `deriveChain` only appends to the chain it starts from. -/
theorem deriveLoop_append (parses : List node) : ∀ (k x : Nat) (c : List Nat),
    deriveLoop parses k x c =
      ((deriveLoop parses k x []).1, c ++ (deriveLoop parses k x []).2) := by
  intro k
  induction k with
  | zero => intro x c; simp [deriveLoop]
  | succ k ih =>
    intro x c
    unfold deriveLoop
    simp only []
    rw [shiftLoop_append _ _ (AppendClone c _), shiftLoop_append _ _ (AppendClone [] _)]
    simp only []
    rw [ih _ (AppendClone c _ ++ _), ih _ (AppendClone [] _ ++ _)]
    simp [AppendClone]

theorem shiftLoop_bound : ∀ (j x : Nat) (c : List Nat),
    x ≤ (shiftLoop j x c).1 ∧ ∀ v ∈ (shiftLoop j x c).2, v ∈ c ∨ v ≤ (shiftLoop j x c).1 := by
  intro j
  induction j with
  | zero => intro x c; exact ⟨le_refl _, fun v hv => Or.inl hv⟩
  | succ j ih =>
    intro x c
    unfold shiftLoop
    simp only []
    obtain ⟨h1, h2⟩ := ih (x <<< 1) (AppendClone c (x <<< 1))
    have e : x <<< 1 = x + x := by rw [Nat.shiftLeft_eq]; omega
    refine ⟨by omega, fun v hv => ?_⟩
    rcases h2 v hv with h | h
    · rcases List.mem_append.mp h with h | h
      · exact Or.inl h
      · simp at h
        right
        omega
    · exact Or.inr h

/-- The accumulator never decreases, so every appended value is at most the final
accumulator. -/
theorem deriveLoop_bound (parses : List node) : ∀ (k x : Nat) (c : List Nat),
    x ≤ (deriveLoop parses k x c).1 ∧
      ∀ v ∈ (deriveLoop parses k x c).2, v ∈ c ∨ v ≤ (deriveLoop parses k x c).1 := by
  intro k
  induction k with
  | zero => intro x c; exact ⟨le_refl _, fun v hv => Or.inl hv⟩
  | succ k ih =>
    intro x c
    unfold deriveLoop
    simp only []
    obtain ⟨s1, s2⟩ := shiftLoop_bound
      ((parses.getD k default).z + if k > 0 then (parses.getD (k - 1) default).l else 0)
      (x + (parses.getD k default).e) (AppendClone c (x + (parses.getD k default).e))
    obtain ⟨r1, r2⟩ := ih
      (shiftLoop
        ((parses.getD k default).z + if k > 0 then (parses.getD (k - 1) default).l else 0)
        (x + (parses.getD k default).e) (AppendClone c (x + (parses.getD k default).e))).1
      (shiftLoop
        ((parses.getD k default).z + if k > 0 then (parses.getD (k - 1) default).l else 0)
        (x + (parses.getD k default).e) (AppendClone c (x + (parses.getD k default).e))).2
    refine ⟨by omega, fun v hv => ?_⟩
    rcases r2 v hv with h | h
    · rcases s2 v h with h | h
      · rcases List.mem_append.mp h with h | h
        · exact Or.inl h
        · have hv2 := List.mem_singleton.mp h
          right
          omega
      · right
        omega
    · exact Or.inr h

theorem shiftLoop_fst_mem : ∀ (j x : Nat) (c : List Nat), x ∈ c →
    (shiftLoop j x c).1 ∈ (shiftLoop j x c).2 := by
  intro j
  induction j with
  | zero => intro x c hx; exact hx
  | succ j ih =>
    intro x c _
    unfold shiftLoop
    simp only []
    exact ih _ _ (by simp [AppendClone])

/-- The final accumulator is in the chain as soon as the loop body ran once. -/
theorem deriveLoop_fst_mem (parses : List node) : ∀ (k x : Nat) (c : List Nat),
    (x ∈ c ∨ 0 < k) → (deriveLoop parses k x c).1 ∈ (deriveLoop parses k x c).2 := by
  intro k
  induction k with
  | zero =>
    intro x c h
    rcases h with h | h
    · exact h
    · omega
  | succ k ih =>
    intro x c _
    unfold deriveLoop
    simp only []
    exact ih _ _ (Or.inl (shiftLoop_fst_mem _ _ _ (by simp [AppendClone])))

/-- The accumulator of `deriveChain` ends at the target. -/
theorem deriveLoop_buildTree (n : Nat) (c : List Nat) :
    (deriveLoop (buildTree n) (buildTree n).length 0 c).1 = n := by
  have := deriveLoop_fst (buildTree n) (buildTree n).length 0 c
  rw [Nat.zero_mul, Nat.zero_mul, Nat.zero_add, valUpTo_buildTree] at this
  exact this

theorem buildTree_length_pos (n : Nat) (hn : 0 < n) : 0 < (buildTree n).length := by
  by_contra h
  have h0 : (buildTree n).length = 0 := by omega
  have := deriveLoop_buildTree n []
  rw [h0] at this
  simp [deriveLoop] at this
  omega

theorem target_mem_deriveLoop (n : Nat) (hn : 0 < n) (c : List Nat) :
    n ∈ (deriveLoop (buildTree n) (buildTree n).length 0 c).2 := by
  have h := deriveLoop_fst_mem (buildTree n) (buildTree n).length 0 c
    (Or.inr (buildTree_length_pos n hn))
  rw [deriveLoop_buildTree] at h
  exact h

theorem deriveChain_of_ok {σ ε : Type} (seqalg : SequenceAlgorithm σ ε) (s : σ)
    (parses : List node) (h : (seqalg s (dictionary parses)).1.2 = none) :
    deriveChain seqalg s parses =
      ((Unique (SortAscending
          (deriveLoop parses parses.length 0 (seqalg s (dictionary parses)).1.1).2), none),
        (seqalg s (dictionary parses)).2) := by
  unfold deriveChain
  simp only []
  split
  · rename_i c err s1 heq
    rw [heq] at h
    simp at h
  · rename_i c s1 heq
    rw [heq]

theorem deriveChain_of_error {σ ε : Type} (seqalg : SequenceAlgorithm σ ε) (s : σ)
    (parses : List node) (err : ε) (h : (seqalg s (dictionary parses)).1.2 = some err) :
    deriveChain seqalg s parses = (([], some err), (seqalg s (dictionary parses)).2) := by
  unfold deriveChain
  simp only []
  split
  · rename_i c err1 s1 heq
    rw [heq] at h
    simp at h
    rw [heq, h]
  · rename_i c s1 heq
    rw [heq] at h
    simp at h

theorem FindChain_of_pos {σ ε : Type} (seqalg : SequenceAlgorithm σ ε) (s : σ) (n : Nat)
    (hn : 0 < n) : FindChain seqalg s n = deriveChain seqalg s (buildTree n) := by
  unfold FindChain
  have : IsNonZero n = true := by
    unfold IsNonZero
    simp
    omega
  simp [this]


/-! ## Yacobi: the chain algorithm -/

/-- C1: for every target `n > 0` and every sequence algorithm whose result on the dictionary
is a valid addition chain (first element 1, every later element the sum of two earlier
elements) that contains every dictionary value, `FindChain n` succeeds and returns a chain
that is itself a valid addition chain and that contains `n`. -/
theorem FindChain_valid_chain {σ ε : Type} (seqalg : SequenceAlgorithm σ ε) (s : σ) (n : Nat)
    (hn : 0 < n)
    (hok : (seqalg s (dictionary (buildTree n))).1.2 = none)
    (hchain : IsAddChain (seqalg s (dictionary (buildTree n))).1.1)
    (hdict : ∀ d ∈ dictionary (buildTree n), d ∈ (seqalg s (dictionary (buildTree n))).1.1) :
    (FindChain seqalg s n).1.2 = none ∧ IsAddChain (FindChain seqalg s n).1.1 ∧
      n ∈ (FindChain seqalg s n).1.1 := by
  rw [FindChain_of_pos seqalg s n hn, deriveChain_of_ok seqalg s _ hok]
  refine ⟨rfl, ?_, ?_⟩
  · obtain ⟨hc, _⟩ := deriveLoop_closed (buildTree n) (buildTree n).length 0 _
      hchain.closed (Or.inl rfl)
      (fun i hi => hdict _ (getD_mem_dictionary _ i hi))
    exact hc.isAddChain (sorted_Unique_SortAscending _) (mem_Unique_SortAscending _)
  · exact (mem_Unique_SortAscending _ _).mpr (target_mem_deriveLoop n hn _)

theorem FindChain_valid_chain_witness :
    (FindChain identityAlgorithm () 5).1.2 = none ∧
      IsAddChain (FindChain identityAlgorithm () 5).1.1 ∧
      5 ∈ (FindChain identityAlgorithm () 5).1.1 :=
  FindChain_valid_chain identityAlgorithm () 5 (by decide) (by decide) (by decide) (by decide)

/-- The counting algorithm meets the contract of a sequence algorithm on every list of
positive targets: it succeeds with a valid addition chain that contains every target. -/
theorem countingAlgorithm_contract (targets : List Nat) (hpos : ∀ t ∈ targets, 0 < t) :
    (countingAlgorithm () targets).1.2 = none ∧
      IsAddChain (countingAlgorithm () targets).1.1 ∧
      ∀ t ∈ targets, t ∈ (countingAlgorithm () targets).1.1 := by
  have hmax : ∀ (ts : List Nat), ∀ t ∈ ts, t ≤ ts.foldr max 0 := by
    intro ts
    induction ts with
    | nil => intro t ht; simp at ht
    | cons a u ih =>
      intro t ht
      simp only [List.foldr_cons]
      rcases List.mem_cons.mp ht with h | h
      · rw [h]; exact le_max_left _ _
      · exact le_trans (ih t h) (le_max_right _ _)
  refine ⟨rfl, ⟨?_, ?_⟩, ?_⟩
  · simp [countingAlgorithm, List.range'_succ]
  · intro i hi hipos
    simp only [countingAlgorithm, List.length_range'] at hi
    refine ⟨i - 1, by omega, 0, by omega, ?_⟩
    simp only [countingAlgorithm]
    rw [List.getD_eq_getElem _ _ (by simpa using hi),
      List.getD_eq_getElem _ _ (by simp; omega), List.getD_eq_getElem _ _ (by simp)]
    simp only [List.getElem_range']
    omega
  · intro t ht
    simp only [countingAlgorithm, List.mem_range']
    have h1 := hmax targets t ht
    have h2 := hpos t ht
    exact ⟨t - 1, by omega, by omega⟩

/-- C2 as stated fails: the counting algorithm returns `[1, 2]` for the dictionary `[1]` of
target 1, a valid addition chain containing the requested target, and `FindChain 1` then
returns `[1, 2]`, whose last element is 2. -/
theorem FindChain_last_counterexample :
    (countingAlgorithm () (dictionary (buildTree 1))).1.2 = none ∧
      IsAddChain (countingAlgorithm () (dictionary (buildTree 1))).1.1 ∧
      (∀ d ∈ dictionary (buildTree 1),
        d ∈ (countingAlgorithm () (dictionary (buildTree 1))).1.1) ∧
      (FindChain countingAlgorithm () 1).1 = ([1, 2], none) ∧
      (FindChain countingAlgorithm () 1).1.1.getLast? ≠ some 1 := by
  decide

/-- C2, amended: for every target `n > 0` and every sequence algorithm that meets the
FindSequence contract on the dictionary (its chain is a valid addition chain containing every
requested target) and whose chain has no element larger than `n`, the last element of the
chain returned by `FindChain n` equals `n`. -/
theorem FindChain_last_eq_target {σ ε : Type} (seqalg : SequenceAlgorithm σ ε) (s : σ)
    (n : Nat) (hn : 0 < n)
    (hok : (seqalg s (dictionary (buildTree n))).1.2 = none)
    (_hchain : IsAddChain (seqalg s (dictionary (buildTree n))).1.1)
    (_hdict : ∀ d ∈ dictionary (buildTree n), d ∈ (seqalg s (dictionary (buildTree n))).1.1)
    (hle : ∀ v ∈ (seqalg s (dictionary (buildTree n))).1.1, v ≤ n) :
    (FindChain seqalg s n).1.1.getLast? = some n := by
  rw [FindChain_of_pos seqalg s n hn, deriveChain_of_ok seqalg s _ hok]
  apply getLast?_of_sorted _ n (sorted_Unique_SortAscending _)
  · exact (mem_Unique_SortAscending _ _).mpr (target_mem_deriveLoop n hn _)
  · intro v hv
    have hv2 := (mem_Unique_SortAscending _ _).mp hv
    obtain ⟨_, hb⟩ := deriveLoop_bound (buildTree n) (buildTree n).length 0
      (seqalg s (dictionary (buildTree n))).1.1
    rw [deriveLoop_buildTree] at hb
    rcases hb v hv2 with h | h
    · exact hle v h
    · exact h

theorem FindChain_last_eq_target_witness :
    (FindChain identityAlgorithm () 5).1.1.getLast? = some 5 :=
  FindChain_last_eq_target identityAlgorithm () 5 (by decide) (by decide) (by decide)
    (by decide) (by decide)

/-- C3: Yacobi round trip.  For every target `n > 0`, running the accumulator updates of
`deriveChain` over `buildTree n` (start at 0; for each parse from last to first add `e`,
then double `z + l_prev` times) leaves the accumulator equal to `n`, whatever chain the
values are appended to. -/
theorem deriveChain_round_trip (n : Nat) (_hn : 0 < n) (c : List Nat) :
    (deriveLoop (buildTree n) (buildTree n).length 0 c).1 = n :=
  deriveLoop_buildTree n c

theorem deriveChain_round_trip_witness :
    (deriveLoop (buildTree 45) (buildTree 45).length 0 []).1 = 45 :=
  deriveChain_round_trip 45 (by decide) []

/-- C4: for target 0 and every sequence algorithm, `FindChain` returns the empty chain with
no error and leaves the state of the sequence algorithm untouched: the sequence algorithm is
not consulted. -/
theorem FindChain_zero {σ ε : Type} (seqalg : SequenceAlgorithm σ ε) (s : σ) :
    FindChain seqalg s 0 = (([], none), s) := by
  simp [FindChain, IsNonZero]

/-- C5: for every target `n > 0`, if the sequence algorithm returns an error on the
dictionary built from `n`, `FindChain n` returns exactly that error and no chain; and
`FindChain n` returns an error only in that case. -/
theorem FindChain_error {σ ε : Type} (seqalg : SequenceAlgorithm σ ε) (s : σ) (n : Nat)
    (hn : 0 < n) :
    (∀ err : ε, (seqalg s (dictionary (buildTree n))).1.2 = some err →
        (FindChain seqalg s n).1 = ([], some err)) ∧
      (∀ err : ε, (FindChain seqalg s n).1.2 = some err →
        (seqalg s (dictionary (buildTree n))).1.2 = some err) := by
  rw [FindChain_of_pos seqalg s n hn]
  constructor
  · intro err h
    rw [deriveChain_of_error seqalg s _ err h]
  · intro err h
    cases hres : (seqalg s (dictionary (buildTree n))).1.2 with
    | none =>
      rw [deriveChain_of_ok seqalg s _ hres] at h
      simp at h
    | some err1 =>
      rw [deriveChain_of_error seqalg s _ err1 hres] at h
      exact h

theorem FindChain_error_witness :
    (failingAlgorithm () (dictionary (buildTree 5))).1 = ([1], some ()) ∧
      (FindChain failingAlgorithm () 5).1 = ([], some ()) :=
  ⟨by decide, (FindChain_error failingAlgorithm () 5 (by decide)).1 () (by decide)⟩

/-- C6: for target 1 and every sequence algorithm that returns the chain `[1]` for the
dictionary `[1]`, `FindChain 1` returns exactly the one-element chain `[1]`. -/
theorem FindChain_one {σ ε : Type} (seqalg : SequenceAlgorithm σ ε) (s : σ)
    (h : (seqalg s [1]).1 = ([1], none)) : (FindChain seqalg s 1).1 = ([1], none) := by
  have hd : dictionary (buildTree 1) = [1] := by decide
  have hok : (seqalg s (dictionary (buildTree 1))).1.2 = none := by rw [hd, h]
  have hc : Unique (SortAscending (deriveLoop (buildTree 1) (buildTree 1).length 0 [1]).2) =
      [1] := by decide
  rw [FindChain_of_pos seqalg s 1 (by decide), deriveChain_of_ok seqalg s _ hok, hd, h]
  simp only []
  rw [hc]

theorem FindChain_one_witness : (FindChain identityAlgorithm () 1).1 = ([1], none) :=
  FindChain_one identityAlgorithm () (by decide)

/-- C7: worked example.  For target 5, `buildTree` yields exactly two parses in order,
`(e=1, z=0, l=1)` then `(e=1, z=1, l=1)`; the dictionary is `[1]`, and it is the one
dictionary handed to the sequence algorithm; with a sequence algorithm that returns its input
dictionary as the chain, `FindChain 5` returns exactly `[1, 2, 4, 5]`. -/
theorem FindChain_five :
    (buildTree 5).map symbol = [(1, 0, 1), (1, 1, 1)] ∧
      dictionary (buildTree 5) = [1] ∧
      FindChain recordingAlgorithm [] 5 = (([1, 2, 4, 5], none), [[1]]) ∧
      (FindChain identityAlgorithm () 5).1 = ([1, 2, 4, 5], none) := by
  decide

/-- C8: for every target `n > 0`, the dictionary that `deriveChain` hands to the sequence
algorithm (the result of `FindChain` depends on the sequence algorithm only through its
answer on that list) is strictly ascending and its values are exactly the extracted values
`e` of the parses of `n`; parse lists with the same set of `e` values give the same
dictionary. -/
theorem dictionary_sorted_unique {σ ε : Type} (n : Nat) (hn : 0 < n) :
    (∀ (seqalg other : SequenceAlgorithm σ ε) (s : σ),
        seqalg s (dictionary (buildTree n)) = other s (dictionary (buildTree n)) →
        FindChain seqalg s n = FindChain other s n) ∧
      (dictionary (buildTree n)).Sorted (fun a b => a < b) ∧
      (∀ v, v ∈ dictionary (buildTree n) ↔ ∃ p ∈ buildTree n, p.e = v) ∧
      (∀ ps qs : List node, (∀ v, (∃ p ∈ ps, p.e = v) ↔ (∃ q ∈ qs, q.e = v)) →
        dictionary ps = dictionary qs) := by
  refine ⟨?_, sorted_Unique_SortAscending _, mem_dictionary _, ?_⟩
  · intro seqalg other s h
    rw [FindChain_of_pos seqalg s n hn, FindChain_of_pos other s n hn]
    unfold deriveChain
    simp only []
    rw [h]
  · intro ps qs h
    exact @eq_of_sorted_of_mem (dictionary ps) (dictionary qs) (sorted_Unique_SortAscending _)
      (sorted_Unique_SortAscending _)
      (fun v => by rw [mem_dictionary, mem_dictionary]; exact h v)

theorem dictionary_sorted_unique_witness :
    (dictionary (buildTree 45)).Sorted (fun a b => a < b) :=
  (@dictionary_sorted_unique Unit Unit 45 (by decide)).2.1

/-- C9: for every target `n > 0` on which the sequence algorithm succeeds, the chain returned
by `FindChain n` is strictly ascending, and its elements are exactly the elements of the
chain of the sequence algorithm together with the accumulator values recorded during
derivation. -/
theorem FindChain_sorted_union {σ ε : Type} (seqalg : SequenceAlgorithm σ ε) (s : σ) (n : Nat)
    (hn : 0 < n) (hok : (seqalg s (dictionary (buildTree n))).1.2 = none) :
    (FindChain seqalg s n).1.1.Sorted (fun a b => a < b) ∧
      ∀ v, v ∈ (FindChain seqalg s n).1.1 ↔
        v ∈ (seqalg s (dictionary (buildTree n))).1.1 ∨ v ∈ accumulatorTrace (buildTree n) := by
  rw [FindChain_of_pos seqalg s n hn, deriveChain_of_ok seqalg s _ hok]
  refine ⟨sorted_Unique_SortAscending _, fun v => ?_⟩
  simp only []
  rw [mem_Unique_SortAscending, deriveLoop_append]
  simp only [List.mem_append]
  rfl

theorem FindChain_sorted_union_witness :
    (FindChain identityAlgorithm () 45).1.1.Sorted (fun a b => a < b) :=
  (FindChain_sorted_union identityAlgorithm () 45 (by decide) (by decide)).1

end yacobi

namespace ensemble

/-! ## The ensemble catalog -/

/-- A larger bound on the trip count of a counting loop whose counter grows gives the same
result. -/
theorem forLoop_fuel {α : Type} (hi : Nat) (next : Nat → Nat) (body : Nat → α → α) :
    ∀ (fuel k : Nat) (acc : α) (extra : Nat), (∀ j, k ≤ j → j < next j) → hi + 1 - k ≤ fuel →
      forLoop hi next body (fuel + extra) k acc = forLoop hi next body fuel k acc := by
  intro fuel
  induction fuel with
  | zero =>
    intro k acc extra _ h
    cases extra with
    | zero => rfl
    | succ extra =>
      have hk : ¬ k ≤ hi := by omega
      simp only [Nat.zero_add, forLoop, hk, if_false]
  | succ fuel ih =>
    intro k acc extra hnext h
    have e : fuel + 1 + extra = (fuel + extra) + 1 := by omega
    rw [e]
    unfold forLoop
    split
    · have hk := hnext k (le_refl k)
      exact ih (next k) (body k acc) extra (fun j hj => hnext j (by omega)) (by omega)
    · rfl

theorem seqalgs_foldl_length {ι : Type} (Singleton : ι → Bool) :
    ∀ (Strategies : List ι) (init : List (SequenceAlgorithm ι)),
    (Strategies.foldl (fun seqalgs strategy =>
      if Singleton strategy then seqalgs ++ [SequenceAlgorithm.contfrac strategy] else seqalgs)
      init).length = init.length + Strategies.countP Singleton := by
  intro Strategies
  induction Strategies with
  | nil => intro init; simp
  | cons a t ih =>
    intro init
    rw [List.foldl_cons, ih, List.countP_cons]
    by_cases h : Singleton a = true
    · simp [h]; omega
    · simp [h]

theorem seqalgs_length {ι : Type} (Strategies : List ι) (Singleton : ι → Bool) :
    (seqalgs Strategies Singleton).length = 2 + Strategies.countP Singleton := by
  unfold seqalgs
  simp only []
  rw [seqalgs_foldl_length]
  rfl

theorem foldl_append_length {α β : Type} (g : α → β) :
    ∀ (xs : List α) (init : List β),
    (xs.foldl (fun as x => as ++ [g x]) init).length = init.length + xs.length := by
  intro xs
  induction xs with
  | nil => intro init; simp
  | cons a t ih =>
    intro init
    rw [List.foldl_cons, ih]
    simp
    omega

theorem cross_length {ι : Type} (ss : List (SequenceAlgorithm ι)) :
    ∀ (ds : List Decomposer) (init : List (ChainAlgorithm ι)),
    (ds.foldl (fun as decomp =>
      ss.foldl (fun as seqalg => as ++ [ChainAlgorithm.dict decomp seqalg]) as) init).length =
      init.length + ds.length * ss.length := by
  intro ds
  induction ds with
  | nil => intro init; simp
  | cons d t ih =>
    intro init
    rw [List.foldl_cons, ih, foldl_append_length (fun seqalg => ChainAlgorithm.dict d seqalg)]
    simp only [List.length_cons]
    ring

theorem wrapAll_length {ι : Type} (as : List (ChainAlgorithm ι)) :
    (wrapAll as).length = as.length := by
  unfold wrapAll
  generalize List.range as.length = idx
  induction idx generalizing as with
  | nil => rfl
  | cons i t ih =>
    rw [List.foldl_cons]
    split
    · rw [ih, List.length_set]
    · exact ih as

set_option maxRecDepth 100000 in
/-- C10: the decomposer catalog built by `Ensemble` has exactly 122 entries (18
sliding-window, then 5 run-length, then 63 hybrid for K in 2..8, then 36 hybrid for even K in
10..20), and `Ensemble` returns exactly `123 * (2 + s)` chain algorithms, where `s` is the
number of strategies in the external catalog that are singletons. -/
theorem Ensemble_catalog_size {ι : Type} (Strategies : List ι) (Singleton : ι → Bool) :
    decomposers.length = 122 ∧
      (decomposers.take 18).all Decomposer.isSlidingWindow = true ∧
      ((decomposers.drop 18).take 5).all Decomposer.isRunLength = true ∧
      ((decomposers.drop 23).take 63).all (Decomposer.isHybrid 2 8 false) = true ∧
      (decomposers.drop 86).all (Decomposer.isHybrid 10 20 true) = true ∧
      (decomposers.drop 86).length = 36 ∧
      (Ensemble Strategies Singleton).length = 123 * (2 + Strategies.countP Singleton) := by
  have hlen : decomposers.length = 122 := by decide
  refine ⟨hlen, by decide, by decide, by decide, by decide, by decide, ?_⟩
  unfold Ensemble
  simp only []
  rw [wrapAll_length, foldl_append_length (fun seqalg => ChainAlgorithm.runs seqalg),
    cross_length, hlen, seqalgs_length]
  simp only [List.length_nil]
  ring

end ensemble

namespace yacobi

/-! ## Bit accounting of buildTree -/

theorem Bit_lt_two (seq j : Nat) : Bit seq j < 2 := by
  unfold Bit
  omega

theorem skipZeros_bits (seq n : Nat) : ∀ fuel b z : Nat, n - b ≤ fuel →
    (∀ j, b ≤ j → j < (skipZeros seq n fuel b z).1 → Bit seq j = 0) ∧
    ((skipZeros seq n fuel b z).1 < n → Bit seq (skipZeros seq n fuel b z).1 = 1) := by
  intro fuel
  induction fuel with
  | zero =>
    intro b z h
    simp only [skipZeros]
    exact ⟨fun j h1 h2 => by omega, fun h1 => by omega⟩
  | succ fuel ih =>
    intro b z h
    unfold skipZeros
    split
    · rename_i hc
      obtain ⟨h1, h2⟩ := ih (b + 1) (z + 1) (by omega)
      refine ⟨fun j hj1 hj2 => ?_, h2⟩
      rcases Nat.eq_or_lt_of_le hj1 with e | hlt
      · rw [← e]; exact hc.2
      · exact h1 j (by omega) hj2
    · rename_i hc
      refine ⟨fun j h1 h2 => by simp only [] at h2; omega, fun h1 => ?_⟩
      simp only [] at h1 ⊢
      have := Bit_lt_two seq b
      have hne : Bit seq b ≠ 0 := fun h0 => hc ⟨h1, h0⟩
      omega

theorem BitLen_pos (seq : Nat) (h : 0 < seq) : 0 < BitLen seq := by
  by_contra hcon
  have h0 : BitLen seq = 0 := by omega
  have := lt_two_pow_BitLen seq
  rw [h0] at this
  omega

/-- The highest bit below the bit length of a positive integer is set. -/
theorem Bit_top (seq : Nat) (h : 0 < seq) : Bit seq (BitLen seq - 1) = 1 := by
  have hpos := BitLen_pos seq h
  have h1 : 2 ^ (BitLen seq - 1) ≤ seq := bitLenAux_le seq seq (by unfold BitLen at hpos; omega)
  have h2 := lt_two_pow_BitLen seq
  have e : BitLen seq = (BitLen seq - 1) + 1 := by omega
  rw [e, pow_succ] at h2
  have hp : 0 < 2 ^ (BitLen seq - 1) := Nat.two_pow_pos _
  have hd : seq / 2 ^ (BitLen seq - 1) = 1 := by
    apply le_antisymm
    · have h3 : seq < 2 * 2 ^ (BitLen seq - 1) := by omega
      have := (Nat.div_lt_iff_lt_mul hp).mpr h3
      omega
    · exact (Nat.le_div_iff_mul_le hp).mpr (by omega)
  unfold Bit
  rw [hd]

/-- The body of the outer loop never leaves by `if b >= n { break }` for a positive target:
the zero-skipping loop stops on a set bit below the bit length. -/
theorem buildStep_ne_none (seq b : Nat) (heap : List node) (ptrs : List Nat) (hseq : 0 < seq)
    (hb : b < BitLen seq) : buildStep seq (BitLen seq) b heap ptrs ≠ none := by
  intro h
  unfold buildStep at h
  simp only [] at h
  split at h
  · rename_i hge
    obtain ⟨h1, _⟩ := skipZeros_bits seq (BitLen seq) (BitLen seq - b) b 0 (le_refl _)
    have := h1 (BitLen seq - 1) (by omega) (by omega)
    rw [Bit_top seq hseq] at this
    omega
  · simp at h

/-- What one iteration of the outer loop of `buildTree` does, bit by bit. -/
theorem buildStep_bits (seq n b : Nat) (heap : List node) (ptrs : List Nat)
    (st : Nat × List node × List Nat) (h : buildStep seq n b heap ptrs = some st) :
    ∃ z l : Nat, b + z < n ∧ st.1 = b + z + l ∧ 0 < l ∧ st.1 ≤ n ∧
      (∀ j, b ≤ j → j < b + z → Bit seq j = 0) ∧ Bit seq (b + z) = 1 ∧
      st.2.2 = ptrs ++ [heap.length] ∧ st.2.1.length = heap.length + 1 ∧
      (∀ i < heap.length, symbol (deref st.2.1 i) = symbol (deref heap i)) ∧
      symbol (deref st.2.1 heap.length) = (Extract seq (b + z) (b + z + l), z, l) := by
  obtain ⟨z, l, h1, h2, h3, h4, _, h6, h7, h8, h9⟩ := buildStep_some seq n b heap ptrs st h
  have hz : (skipZeros seq n (n - b) b 0).1 = b + z := by
    unfold buildStep at h
    simp only [] at h
    split at h
    · simp at h
    · injection h with h
      have hs := congrArg (fun t => symbol (deref t.2.1 heap.length)) h
      simp only [] at hs
      rw [h9] at hs
      obtain ⟨_, s2, _, _⟩ := skipZeros_spec seq n (n - b) b 0
      have hz2 : (skipZeros seq n (n - b) b 0).2 = z := by
        split at hs
        · rw [symbol_deref_setChildZero, deref_append_length] at hs
          simp [symbol] at hs
          exact hs.2.1
        · rw [symbol_deref_setChildOne, deref_append_length] at hs
          simp [symbol] at hs
          exact hs.2.1
      omega
  obtain ⟨b1, b2⟩ := skipZeros_bits seq n (n - b) b 0 (le_refl _)
  rw [hz] at b1 b2
  rw [h2] at h9
  exact ⟨z, l, h1, h2, h3, h4, b1, b2 h1, h6, h7, h8, h9⟩

end yacobi

namespace yacobi

/-- Induction over the outer loop of `buildTree` on the list of symbols `(e, z, l)` of the
parses: each iteration appends one symbol, which starts on a set bit after a gap of zero
bits. -/
theorem buildLoop_symbols (seq n : Nat) (P : Nat → List (Nat × Nat × Nat) → Prop)
    (hstep : ∀ (b : Nat) (syms : List (Nat × Nat × Nat)) (z l : Nat), P b syms → b + z < n →
      0 < l → b + z + l ≤ n → (∀ j, b ≤ j → j < b + z → Bit seq j = 0) → Bit seq (b + z) = 1 →
      P (b + z + l) (syms ++ [(Extract seq (b + z) (b + z + l), z, l)])) :
    ∀ (fuel b : Nat) (heap : List node) (ptrs : List Nat), b ≤ n →
      (∀ q ∈ ptrs, q < heap.length) → P b (ptrs.map (fun q => symbol (deref heap q))) →
      n - b ≤ fuel →
      ∃ b1 : Nat, b1 ≤ n ∧
        P b1 ((buildLoop seq n fuel b heap ptrs).2.map
          (fun q => symbol (deref (buildLoop seq n fuel b heap ptrs).1 q))) ∧
        (n ≤ b1 ∨ buildStep seq n b1 (buildLoop seq n fuel b heap ptrs).1
          (buildLoop seq n fuel b heap ptrs).2 = none) := by
  intro fuel b heap ptrs hb hv hP hf
  obtain ⟨b1, ⟨i1, _, i3⟩, hexit⟩ := buildLoop_induction seq n
    (fun b heap ptrs => b ≤ n ∧ (∀ q ∈ ptrs, q < heap.length) ∧
      P b (ptrs.map (fun q => symbol (deref heap q))))
    (fun b heap ptrs st hI _ h => by
      obtain ⟨j1, j2, j3⟩ := hI
      obtain ⟨z, l, h1, h2, h3, h4, h5, h6, h7, h8, h9, h10⟩ :=
        buildStep_bits seq n b heap ptrs st h
      refine ⟨h4, ?_, ?_⟩
      · intro q hq
        rw [h7] at hq
        rw [h8]
        rcases List.mem_append.mp hq with hq | hq
        · have := j2 q hq
          omega
        · have := List.mem_singleton.mp hq
          omega
      · have e1 : ptrs.map (fun q => symbol (deref st.2.1 q)) =
            ptrs.map (fun q => symbol (deref heap q)) :=
          List.map_congr_left (fun q hq => h9 q (j2 q hq))
        rw [h7, List.map_append, e1, List.map_singleton, h10, h2]
        exact hstep b _ z l j3 h1 h3 (by omega) h5 h6)
    fuel b heap ptrs ⟨hb, hv, hP⟩ hf
  exact ⟨b1, i1, i3, hexit⟩

/-- Induction over `buildTree` for a positive target, on the list of symbols of the parses. -/
theorem buildTree_symbols (seq : Nat) (hseq : 0 < seq)
    (P : Nat → List (Nat × Nat × Nat) → Prop) (h0 : P 0 [])
    (hstep : ∀ (b : Nat) (syms : List (Nat × Nat × Nat)) (z l : Nat), P b syms →
      b + z < BitLen seq → 0 < l → b + z + l ≤ BitLen seq →
      (∀ j, b ≤ j → j < b + z → Bit seq j = 0) → Bit seq (b + z) = 1 →
      P (b + z + l) (syms ++ [(Extract seq (b + z) (b + z + l), z, l)])) :
    P (BitLen seq) ((buildTree seq).map symbol) := by
  obtain ⟨b1, hle, hP, hexit⟩ := buildLoop_symbols seq (BitLen seq) P hstep (BitLen seq) 0
    [⟨One, 0, 0, none, none⟩] [] (Nat.zero_le _) (by simp) h0 (by omega)
  have hb1 : b1 = BitLen seq := by
    rcases hexit with h | h
    · omega
    · by_contra hne
      exact buildStep_ne_none seq b1 _ _ hseq (by omega) h
  have hm : (buildTree seq).map symbol = (buildTreeState seq).2.map
      (fun q => symbol (deref (buildTreeState seq).1 q)) := by
    simp [buildTree, List.map_map, Function.comp_def]
  rw [hm, ← hb1]
  exact hP

theorem symPos_append (syms t : List (Nat × Nat × Nat)) : ∀ k : Nat, k ≤ syms.length →
    symPos (syms ++ t) k = symPos syms k := by
  intro k
  induction k with
  | zero => intro _; rfl
  | succ k ih =>
    intro h
    simp only [symPos]
    rw [ih (by omega), List.getD_append _ _ _ _ (by omega)]

theorem accounted_append (seq : Nat) (syms t : List (Nat × Nat × Nat)) (i : Nat)
    (h : i < syms.length) (ha : accounted seq syms i) : accounted seq (syms ++ t) i := by
  unfold accounted at ha ⊢
  rw [symPos_append _ _ i (by omega), List.getD_append _ _ _ _ h]
  exact ha

theorem tiles_step (seq b : Nat) (syms : List (Nat × Nat × Nat)) (z l : Nat)
    (h : tiles seq b syms) (hl : 0 < l) (hz : ∀ j, b ≤ j → j < b + z → Bit seq j = 0)
    (hs : Bit seq (b + z) = 1) :
    tiles seq (b + z + l) (syms ++ [(Extract seq (b + z) (b + z + l), z, l)]) := by
  obtain ⟨h1, h2, h3⟩ := h
  have hget : (syms ++ [(Extract seq (b + z) (b + z + l), z, l)]).getD syms.length (0, 0, 0) =
      (Extract seq (b + z) (b + z + l), z, l) := by
    rw [List.getD_append_right _ _ _ _ (le_refl _)]
    simp
  have hpos : symPos (syms ++ [(Extract seq (b + z) (b + z + l), z, l)]) syms.length = b := by
    rw [symPos_append _ _ _ (le_refl _), h1]
  refine ⟨?_, ?_, ?_⟩
  · simp only [List.length_append, List.length_singleton, symPos, hget, hpos]
    omega
  · simp only [List.length_append, List.length_singleton]
    omega
  · intro i hi
    simp only [List.length_append, List.length_singleton] at hi
    rcases Nat.lt_or_ge i syms.length with hlt | hge
    · exact accounted_append seq syms _ i hlt (h3 i hlt)
    · have e : i = syms.length := by omega
      subst e
      unfold accounted
      rw [hget, hpos]
      refine ⟨?_, hz, hs, hl⟩
      simp only [Extract]
      congr 2
      omega

/-- The symbols of `buildTree` tile the bits of a positive target. -/
theorem tiles_buildTree (seq : Nat) (hseq : 0 < seq) :
    tiles seq (BitLen seq) ((buildTree seq).map symbol) :=
  buildTree_symbols seq hseq (tiles seq) ⟨rfl, le_refl _, fun i hi => by simp at hi⟩
    (fun b syms z l h _ hl _ hz hs => tiles_step seq b syms z l h hl hz hs)

theorem posUpTo_eq_symPos (ps : List node) : ∀ k : Nat,
    posUpTo ps k = symPos (ps.map symbol) k := by
  intro k
  induction k with
  | zero => rfl
  | succ k ih =>
    have hd : (ps.map symbol).getD k (0, 0, 0) = symbol (ps.getD k default) :=
      List.getD_map ps default symbol
    simp only [posUpTo, symPos, ih, hd, symbol]

theorem symbol_getD (ps : List node) (i : Nat) :
    (ps.map symbol).getD i (0, 0, 0) =
      ((ps.getD i default).e, (ps.getD i default).z, (ps.getD i default).l) :=
  List.getD_map ps default symbol

end yacobi

namespace yacobi

theorem posUpTo_append (ps qs : List node) (k : Nat) (h : k ≤ ps.length) :
    posUpTo (ps ++ qs) k = posUpTo ps k :=
  (upTo_congr (ps ++ qs) ps k
    (fun i hi => by rw [List.getD_append _ _ _ _ (by omega)])).1

/-- The bits covered by all parses: the sum of `z + l` over the list. -/
theorem posUpTo_length (ps : List node) :
    posUpTo ps ps.length = (ps.map (fun p => p.z + p.l)).sum := by
  induction ps using List.reverseRecOn with
  | nil => rfl
  | append_singleton ps p ih =>
    have hget : (ps ++ [p]).getD ps.length default = p := by
      rw [List.getD_append_right _ _ _ _ (le_refl _)]
      simp
    simp only [List.length_append, List.length_singleton, posUpTo, hget,
      posUpTo_append ps [p] ps.length (le_refl _), ih, List.map_append, List.sum_append,
      List.map_singleton, List.sum_singleton]

/-- Per-parse facts of a positive target, read off the tiling invariant. -/
theorem accounted_buildTree (n : Nat) (hn : 0 < n) (i : Nat) (hi : i < (buildTree n).length) :
    ((buildTree n).getD i default).e =
        n / 2 ^ (posUpTo (buildTree n) i + ((buildTree n).getD i default).z) %
          2 ^ ((buildTree n).getD i default).l ∧
      (∀ j, posUpTo (buildTree n) i ≤ j →
        j < posUpTo (buildTree n) i + ((buildTree n).getD i default).z → Bit n j = 0) ∧
      Bit n (posUpTo (buildTree n) i + ((buildTree n).getD i default).z) = 1 ∧
      1 ≤ ((buildTree n).getD i default).l := by
  obtain ⟨_, _, h3⟩ := tiles_buildTree n hn
  have := h3 i (by simpa using hi)
  unfold accounted at this
  rw [symbol_getD, ← posUpTo_eq_symPos] at this
  exact this

theorem posUpTo_buildTree (n : Nat) (hn : 0 < n) :
    posUpTo (buildTree n) (buildTree n).length = BitLen n := by
  obtain ⟨h1, _, _⟩ := tiles_buildTree n hn
  rw [posUpTo_eq_symPos]
  simpa using h1

/-- C12: bit accounting of `buildTree`.  For every target `n > 0` with parses
`(e_i, z_i, l_i)` in scan order and `start_i = posUpTo i + z_i` (the sum of `z_j` for
`j ≤ i` plus the sum of `l_j` for `j < i`), each `e_i` equals `n / 2^start_i mod 2^l_i`,
every bit of `n` in the `z_i` positions just below `start_i` is zero, and the sum of all
`z_i + l_i` equals the bit length of `n`. -/
theorem buildTree_bit_accounting (n : Nat) (hn : 0 < n) :
    (∀ i < (buildTree n).length,
      ((buildTree n).getD i default).e =
          n / 2 ^ (posUpTo (buildTree n) i + ((buildTree n).getD i default).z) %
            2 ^ ((buildTree n).getD i default).l ∧
        ∀ j, posUpTo (buildTree n) i ≤ j →
          j < posUpTo (buildTree n) i + ((buildTree n).getD i default).z → Bit n j = 0) ∧
      posUpTo (buildTree n) (buildTree n).length = BitLen n ∧
      ((buildTree n).map (fun p => p.z + p.l)).sum = BitLen n := by
  have hpos := posUpTo_buildTree n hn
  refine ⟨fun i hi => ?_, hpos, ?_⟩
  · obtain ⟨h1, h2, _, _⟩ := accounted_buildTree n hn i hi
    exact ⟨h1, h2⟩
  · rw [← posUpTo_length]
    exact hpos

theorem buildTree_bit_accounting_witness :
    posUpTo (buildTree 45) (buildTree 45).length = BitLen 45 :=
  (buildTree_bit_accounting 45 (by decide)).2.1

theorem parse_value_odd (n : Nat) (hn : 0 < n) (i : Nat) (hi : i < (buildTree n).length) :
    ((buildTree n).getD i default).e % 2 = 1 ∧
      ((buildTree n).getD i default).e < 2 ^ ((buildTree n).getD i default).l := by
  obtain ⟨h1, _, h3, h4⟩ := accounted_buildTree n hn i hi
  constructor
  · rw [h1]
    have hd : (2 : Nat) ∣ 2 ^ ((buildTree n).getD i default).l :=
      dvd_pow_self 2 (by omega)
    rw [Nat.mod_mod_of_dvd _ hd]
    exact h3
  · rw [h1]
    exact Nat.mod_lt _ (Nat.two_pow_pos _)

/-- C16: for every target `n > 0`, every symbol of `buildTree` begins on a set bit: from every
cursor below the bit length the zero-skipping loop stops below the bit length, so the loop
body never leaves by its early exit, and every parse starts on a set bit, has `l ≥ 1` and an
odd `e` with `1 ≤ e < 2^l`; hence every dictionary value is odd. -/
theorem buildTree_starts_on_set_bit (n : Nat) (hn : 0 < n) :
    (∀ (b : Nat) (heap : List node) (ptrs : List Nat), b < BitLen n →
      (skipZeros n (BitLen n) (BitLen n - b) b 0).1 < BitLen n ∧
        buildStep n (BitLen n) b heap ptrs ≠ none) ∧
      (∀ i < (buildTree n).length,
        Bit n (posUpTo (buildTree n) i + ((buildTree n).getD i default).z) = 1 ∧
          1 ≤ ((buildTree n).getD i default).l ∧
          ((buildTree n).getD i default).e % 2 = 1 ∧
          1 ≤ ((buildTree n).getD i default).e ∧
          ((buildTree n).getD i default).e < 2 ^ ((buildTree n).getD i default).l) ∧
      ∀ d ∈ dictionary (buildTree n), d % 2 = 1 := by
  refine ⟨fun b heap ptrs hb => ⟨?_, buildStep_ne_none n b heap ptrs hn hb⟩, fun i hi => ?_, ?_⟩
  · by_contra hge
    obtain ⟨h1, _⟩ := skipZeros_bits n (BitLen n) (BitLen n - b) b 0 (le_refl _)
    have hp := BitLen_pos n hn
    have := h1 (BitLen n - 1) (by omega) (by omega)
    rw [Bit_top n hn] at this
    omega
  · obtain ⟨_, _, h3, h4⟩ := accounted_buildTree n hn i hi
    obtain ⟨h5, h6⟩ := parse_value_odd n hn i hi
    exact ⟨h3, h4, h5, by omega, h6⟩
  · intro d hd
    obtain ⟨p, hp, e⟩ := (mem_dictionary _ _).mp hd
    obtain ⟨i, hi, ei⟩ := List.mem_iff_getElem.mp hp
    have := (parse_value_odd n hn i hi).1
    rw [List.getD_eq_getElem _ _ hi, ei, e] at this
    exact this

theorem buildTree_starts_on_set_bit_witness :
    ((buildTree 45).getD 1 default).e % 2 = 1 :=
  ((buildTree_starts_on_set_bit 45 (by decide)).2.1 1 (by decide)).2.2.1

/-- C17: `buildTree` terminates for every target: each iteration of the outer loop moves the
cursor up by at least one bit and never past the bit length, a larger bound on the trip count
gives the same trie and parses, for every `n > 0` the parse list is non-empty and has at most
`BitLen n` entries, and for `n = 0` it is empty. -/
theorem buildTree_terminates (n : Nat) :
    (∀ (b : Nat) (heap : List node) (ptrs : List Nat) (st : Nat × List node × List Nat),
      buildStep n (BitLen n) b heap ptrs = some st → b < st.1 ∧ st.1 ≤ BitLen n) ∧
      (∀ extra : Nat,
        buildLoop n (BitLen n) (BitLen n + extra) 0 [⟨One, 0, 0, none, none⟩] [] =
          buildTreeState n) ∧
      (0 < n → 0 < (buildTree n).length ∧ (buildTree n).length ≤ BitLen n) ∧
      (n = 0 → buildTree n = []) := by
  refine ⟨fun b heap ptrs st h => ?_, fun extra => ?_, fun hn => ?_, fun h0 => ?_⟩
  · obtain ⟨z, l, _, h2, h3, h4, _⟩ := buildStep_some n (BitLen n) b heap ptrs st h
    omega
  · exact buildLoop_fuel n (BitLen n) (BitLen n) 0 _ _ extra (by omega)
  · obtain ⟨_, h2, _⟩ := tiles_buildTree n hn
    exact ⟨buildTree_length_pos n hn, by simpa using h2⟩
  · subst h0
    decide

theorem buildTree_terminates_witness :
    0 < (buildTree 45).length ∧ (buildTree 45).length ≤ BitLen 45 :=
  (buildTree_terminates 45).2.2.1 (by decide)

end yacobi

namespace yacobi

/-! ## The derivation trace -/

theorem doublings_succ (y m : Nat) : doublings y (m + 1) = (y * 2) :: doublings (y * 2) m := by
  unfold doublings
  rw [List.range_succ_eq_map, List.map_cons, List.map_map]
  simp only [Nat.zero_add, pow_one, List.cons.injEq, true_and]
  apply List.map_congr_left
  intro j _
  simp only [Function.comp_apply, Nat.succ_eq_add_one, pow_succ]
  ring

theorem shiftLoop_trace : ∀ (j x : Nat) (c : List Nat),
    (shiftLoop j x c).2 = c ++ doublings x j := by
  intro j
  induction j with
  | zero => intro x c; simp [shiftLoop, doublings]
  | succ j ih =>
    intro x c
    unfold shiftLoop
    simp only []
    rw [ih, doublings_succ, Nat.shiftLeft_eq, pow_one]
    simp [AppendClone]

/-- The chain during the main loop of `deriveChain`: what was there, followed by the trace. -/
theorem deriveLoop_trace (parses : List node) : ∀ (k x : Nat) (c : List Nat),
    (deriveLoop parses k x c).2 = c ++ specTrace parses k x := by
  intro k
  induction k with
  | zero => intro x c; simp [deriveLoop, specTrace]
  | succ k ih =>
    intro x c
    unfold deriveLoop specTrace
    simp only []
    rw [ih, shiftLoop_trace, shiftLoop_fst]
    have hq : (if k > 0 then (parses.getD (k - 1) default).l else 0) = prevLen parses k := rfl
    rw [hq]
    simp [AppendClone]

theorem doublings_length (y m : Nat) : (doublings y m).length = m := by
  simp [doublings]

theorem specTrace_length (parses : List node) : ∀ k x : Nat,
    (specTrace parses k x).length + prevLen parses k = k + posUpTo parses k := by
  intro k
  induction k with
  | zero => intro x; simp [specTrace, prevLen, posUpTo]
  | succ k ih =>
    intro x
    have hp : prevLen parses (k + 1) = (parses.getD k default).l := by simp [prevLen]
    have := ih ((x + (parses.getD k default).e) *
      2 ^ ((parses.getD k default).z + prevLen parses k))
    simp only [specTrace, List.length_append, List.length_cons, doublings_length, hp, posUpTo]
    omega

theorem sum_map_dropLast (ps : List node) (f : node → Nat) (h : ps ≠ []) :
    (ps.map f).sum = (ps.dropLast.map f).sum + f (ps.getD (ps.length - 1) default) := by
  induction ps using List.reverseRecOn with
  | nil => exact absurd rfl h
  | append_singleton qs p _ =>
    have hget : (qs ++ [p]).getD ((qs ++ [p]).length - 1) default = p := by
      rw [List.getD_append_right _ _ _ _ (by simp)]
      simp
    rw [hget, List.dropLast_concat]
    simp

/-- The number of recorded accumulator values, in list sums. -/
theorem specTrace_count (ps : List node) (h : ps ≠ []) (x : Nat) :
    (specTrace ps ps.length x).length =
      ps.length + (ps.map (fun p => p.z)).sum + (ps.dropLast.map (fun p => p.l)).sum := by
  have h1 := specTrace_length ps ps.length x
  have h2 := posUpTo_length ps
  have h3 := sum_map_dropLast ps (fun p => p.l) h
  have h4 : (ps.map (fun p => p.z + p.l)).sum =
      (ps.map (fun p => p.z)).sum + (ps.map (fun p => p.l)).sum := List.sum_map_add
  have hlen : 0 < ps.length := List.length_pos.mpr h
  have h5 : prevLen ps ps.length = (ps.getD (ps.length - 1) default).l := by
    simp [prevLen, hlen]
  simp only [] at h3
  omega

theorem doublings_mem (y m v : Nat) (h : v ∈ doublings y m) : y ≤ v ∧ v ≤ y * 2 ^ m := by
  unfold doublings at h
  obtain ⟨j, hj, e⟩ := List.mem_map.mp h
  have hj2 : j < m := List.mem_range.mp hj
  subst e
  constructor
  · exact Nat.le_mul_of_pos_right _ (Nat.two_pow_pos _)
  · exact Nat.mul_le_mul_left _ (Nat.pow_le_pow_right (by omega) (by omega))

theorem doublings_sorted (y m : Nat) : (doublings y m).Sorted (fun a b => a ≤ b) := by
  unfold doublings
  apply List.pairwise_map.mpr
  apply List.Pairwise.imp _ (List.pairwise_lt_range m)
  intro a b hab
  exact Nat.mul_le_mul_left _ (Nat.pow_le_pow_right (by omega) (by omega))

/-- The trace is non-decreasing and starts at or above the first sum. -/
theorem specTrace_sorted (parses : List node) : ∀ k x : Nat,
    (specTrace parses k x).Sorted (fun a b => a ≤ b) ∧
      (∀ v ∈ specTrace parses k x, x ≤ v) ∧
      (∀ v ∈ specTrace parses k x, x + (parses.getD (k - 1) default).e ≤ v) := by
  intro k
  induction k with
  | zero => intro x; simp [specTrace]
  | succ k ih =>
    intro x
    obtain ⟨r1, r2, _⟩ := ih ((x + (parses.getD k default).e) *
      2 ^ ((parses.getD k default).z + prevLen parses k))
    have hy : x + (parses.getD k default).e ≤ (x + (parses.getD k default).e) *
        2 ^ ((parses.getD k default).z + prevLen parses k) :=
      Nat.le_mul_of_pos_right _ (Nat.two_pow_pos _)
    have key : ∀ v ∈ specTrace parses (k + 1) x, x + (parses.getD k default).e ≤ v := by
      intro v hv
      simp only [specTrace, List.mem_append, List.mem_cons] at hv
      rcases hv with (hv | hv) | hv
      · omega
      · exact (doublings_mem _ _ _ hv).1
      · exact le_trans hy (r2 v hv)
    refine ⟨?_, fun v hv => le_trans (Nat.le_add_right _ _) (key v hv), ?_⟩
    · simp only [specTrace]
      apply List.pairwise_append.mpr
      refine ⟨?_, r1, ?_⟩
      · apply List.pairwise_cons.mpr
        exact ⟨fun v hv => (doublings_mem _ _ _ hv).1, doublings_sorted _ _⟩
      · intro a ha b hb
        have hb2 := r2 b hb
        rcases List.mem_cons.mp ha with ha | ha
        · omega
        · exact le_trans (doublings_mem _ _ _ ha).2 hb2
    · simpa using key

theorem accumulatorTrace_eq (parses : List node) :
    accumulatorTrace parses = specTrace parses parses.length 0 := by
  unfold accumulatorTrace
  rw [deriveLoop_trace]
  simp

end yacobi

namespace yacobi

theorem le_foldr_max : ∀ (ts : List Nat), ∀ t ∈ ts, t ≤ ts.foldr max 0 := by
  intro ts
  induction ts with
  | nil => intro t ht; simp at ht
  | cons a u ih =>
    intro t ht
    simp only [List.foldr_cons]
    rcases List.mem_cons.mp ht with h | h
    · rw [h]; exact le_max_left _ _
    · exact le_trans (ih t h) (le_max_right _ _)

theorem foldr_max_mem : ∀ (ts : List Nat), ts.foldr max 0 ≠ 0 → ts.foldr max 0 ∈ ts := by
  intro ts
  induction ts with
  | nil => intro h; simp at h
  | cons a u ih =>
    intro h
    simp only [List.foldr_cons] at h ⊢
    rcases le_total a (u.foldr max 0) with hle | hle
    · rw [max_eq_right hle] at h ⊢
      exact List.mem_cons_of_mem _ (ih h)
    · rw [max_eq_left hle]
      exact List.mem_cons_self _ _

theorem accumulatorTrace_le (n : Nat) : ∀ v ∈ accumulatorTrace (buildTree n), v ≤ n := by
  intro v hv
  obtain ⟨_, hb⟩ := deriveLoop_bound (buildTree n) (buildTree n).length 0 []
  rw [deriveLoop_buildTree] at hb
  rcases hb v hv with h | h
  · simp at h
  · exact h

theorem accumulatorTrace_pos (n : Nat) (hn : 0 < n) :
    ∀ v ∈ accumulatorTrace (buildTree n), 0 < v := by
  intro v hv
  rw [accumulatorTrace_eq] at hv
  have hlen := buildTree_length_pos n hn
  obtain ⟨_, _, h3⟩ := specTrace_sorted (buildTree n) (buildTree n).length 0
  have h4 := h3 v hv
  have h5 := (parse_value_odd n hn ((buildTree n).length - 1) (by omega)).1
  omega

/-- C15: derivation trace.  For every target `n > 0` on which the sequence algorithm
succeeds, at every point of the main loop the chain is the chain it started from followed by
the successive accumulator values, one per addition and one per doubling; the chain before
the final sort is the chain of the sequence algorithm followed by exactly these values; and
their number is (number of parses) + (sum of all `z_i`) + (sum of `l_i` over all parses but
the last). -/
theorem deriveChain_trace {σ ε : Type} (seqalg : SequenceAlgorithm σ ε) (s : σ) (n : Nat)
    (hn : 0 < n) (hok : (seqalg s (dictionary (buildTree n))).1.2 = none) :
    (∀ (k x : Nat) (c : List Nat),
      (deriveLoop (buildTree n) k x c).2 = c ++ specTrace (buildTree n) k x) ∧
      (FindChain seqalg s n).1.1 = Unique (SortAscending
        ((seqalg s (dictionary (buildTree n))).1.1 ++
          specTrace (buildTree n) (buildTree n).length 0)) ∧
      (specTrace (buildTree n) (buildTree n).length 0).length =
        (buildTree n).length + ((buildTree n).map (fun p => p.z)).sum +
          ((buildTree n).dropLast.map (fun p => p.l)).sum := by
  refine ⟨deriveLoop_trace (buildTree n), ?_, ?_⟩
  · rw [FindChain_of_pos seqalg s n hn, deriveChain_of_ok seqalg s _ hok, deriveLoop_trace]
  · exact specTrace_count _ (List.length_pos.mp (buildTree_length_pos n hn)) 0

theorem deriveChain_trace_witness :
    (FindChain identityAlgorithm () 5).1.1 = Unique (SortAscending
        ((identityAlgorithm () (dictionary (buildTree 5))).1.1 ++
          specTrace (buildTree 5) (buildTree 5).length 0)) ∧
      (specTrace (buildTree 5) (buildTree 5).length 0).length =
        (buildTree 5).length + ((buildTree 5).map (fun p => p.z)).sum +
          ((buildTree 5).dropLast.map (fun p => p.l)).sum :=
  (deriveChain_trace identityAlgorithm () 5 (by decide) (by decide)).2

/-- C18: for every target `n > 0` on which the sequence algorithm succeeds, the accumulator
values appended during derivation are non-decreasing, positive and all at most `n`, and the
last element of the chain returned by `FindChain n` is the larger of `n` and the largest
element of the chain of the sequence algorithm. -/
theorem accumulatorTrace_bounds {σ ε : Type} (seqalg : SequenceAlgorithm σ ε) (s : σ) (n : Nat)
    (hn : 0 < n) (hok : (seqalg s (dictionary (buildTree n))).1.2 = none) :
    (accumulatorTrace (buildTree n)).Sorted (fun a b => a ≤ b) ∧
      (∀ v ∈ accumulatorTrace (buildTree n), 0 < v ∧ v ≤ n) ∧
      (FindChain seqalg s n).1.1.getLast? =
        some (max n ((seqalg s (dictionary (buildTree n))).1.1.foldr max 0)) := by
  refine ⟨?_, fun v hv => ⟨accumulatorTrace_pos n hn v hv, accumulatorTrace_le n v hv⟩, ?_⟩
  · rw [accumulatorTrace_eq]
    exact (specTrace_sorted _ _ _).1
  · rw [FindChain_of_pos seqalg s n hn, deriveChain_of_ok seqalg s _ hok]
    apply getLast?_of_sorted _ _ (sorted_Unique_SortAscending _)
    · rw [mem_Unique_SortAscending, deriveLoop_append]
      simp only [List.mem_append]
      rcases le_total ((seqalg s (dictionary (buildTree n))).1.1.foldr max 0) n with h | h
      · rw [max_eq_left h]
        right
        have := target_mem_deriveLoop n hn []
        exact this
      · rw [max_eq_right h]
        left
        exact foldr_max_mem _ (by omega)
    · intro v hv
      rw [mem_Unique_SortAscending, deriveLoop_append] at hv
      simp only [List.mem_append] at hv
      rcases hv with hv | hv
      · exact le_trans (le_foldr_max _ v hv) (le_max_right _ _)
      · exact le_trans (accumulatorTrace_le n v hv) (le_max_left _ _)

theorem accumulatorTrace_bounds_witness :
    (FindChain countingAlgorithm () 1).1.1.getLast? =
      some (max 1 ((countingAlgorithm () (dictionary (buildTree 1))).1.1.foldr max 0)) :=
  (accumulatorTrace_bounds countingAlgorithm () 1 (by decide) (by decide)).2.2

theorem Unique_SortAscending_length (xs : List Nat) :
    (Unique (SortAscending xs)).length = xs.toFinset.card := by
  unfold Unique SortAscending
  rw [← List.card_toFinset, List.toFinset_eq_of_perm _ _ (List.perm_insertionSort _ xs)]

/-- Appending a list whose first element is already present adds at most the number of its
other elements to the number of distinct elements. -/
theorem toFinset_card_append_cons (xs t : List Nat) (y : Nat) (hy : y ∈ xs) :
    (xs ++ y :: t).toFinset.card ≤ xs.dedup.length + t.length := by
  have hsub : (xs ++ y :: t).toFinset ⊆ xs.toFinset ∪ t.toFinset := by
    intro v hv
    simp only [List.mem_toFinset, List.mem_append, List.mem_cons, Finset.mem_union] at hv ⊢
    rcases hv with h | h | h
    · exact Or.inl h
    · rw [h]; exact Or.inl hy
    · exact Or.inr h
  calc (xs ++ y :: t).toFinset.card
      ≤ (xs.toFinset ∪ t.toFinset).card := Finset.card_le_card hsub
    _ ≤ xs.toFinset.card + t.toFinset.card := Finset.card_union_le _ _
    _ ≤ xs.dedup.length + t.length := by
        rw [List.card_toFinset]
        exact Nat.add_le_add_left (List.toFinset_card_le t) _

/-- C19: length bound.  For every target `n > 0` and every sequence algorithm whose chain
contains every dictionary value, the length of the chain returned by `FindChain n` is at most
(number of distinct elements of the chain of the sequence algorithm) + (number of parses - 1)
+ (`BitLen n` - `l_last`), where `l_last` is the bit length of the last parse. -/
theorem FindChain_length_bound {σ ε : Type} (seqalg : SequenceAlgorithm σ ε) (s : σ) (n : Nat)
    (hn : 0 < n)
    (hdict : ∀ d ∈ dictionary (buildTree n), d ∈ (seqalg s (dictionary (buildTree n))).1.1) :
    (FindChain seqalg s n).1.1.length ≤
      (seqalg s (dictionary (buildTree n))).1.1.dedup.length + ((buildTree n).length - 1) +
        (BitLen n - ((buildTree n).getD ((buildTree n).length - 1) default).l) := by
  rw [FindChain_of_pos seqalg s n hn]
  cases hres : (seqalg s (dictionary (buildTree n))).1.2 with
  | some err =>
    rw [deriveChain_of_error seqalg s _ err hres]
    exact Nat.zero_le _
  | none =>
    rw [deriveChain_of_ok seqalg s _ hres, deriveLoop_trace, Unique_SortAscending_length]
    have hlen := buildTree_length_pos n hn
    have hcount := specTrace_length (buildTree n) (buildTree n).length 0
    have hpos := posUpTo_buildTree n hn
    have hprev : prevLen (buildTree n) (buildTree n).length =
        ((buildTree n).getD ((buildTree n).length - 1) default).l := by
      simp [prevLen, hlen]
    obtain ⟨k, hk⟩ : ∃ k, (buildTree n).length = k + 1 := ⟨(buildTree n).length - 1, by omega⟩
    have hlast : ((buildTree n).getD k default).l ≤ posUpTo (buildTree n) (k + 1) := by
      simp only [posUpTo]
      omega
    have hmem : (buildTree n).getD k default ∈ buildTree n := by
      rw [List.getD_eq_getElem _ _ (by omega)]
      exact List.getElem_mem _
    have hin : (0 + ((buildTree n).getD k default).e) ∈
        (seqalg s (dictionary (buildTree n))).1.1 := by
      rw [Nat.zero_add]
      exact hdict _ ((mem_dictionary _ _).mpr ⟨_, hmem, rfl⟩)
    rw [hk] at hcount hpos hprev ⊢
    simp only [Nat.add_sub_cancel] at hprev ⊢
    simp only [specTrace, List.cons_append, List.length_cons] at hcount ⊢
    have hb := toFinset_card_append_cons _
      (doublings (0 + ((buildTree n).getD k default).e)
          (((buildTree n).getD k default).z + prevLen (buildTree n) k) ++
        specTrace (buildTree n) k
          ((0 + ((buildTree n).getD k default).e) *
            2 ^ (((buildTree n).getD k default).z + prevLen (buildTree n) k))) _ hin
    omega

theorem FindChain_length_bound_witness :
    (FindChain identityAlgorithm () 45).1.1.length ≤
      (identityAlgorithm () (dictionary (buildTree 45))).1.1.dedup.length +
        ((buildTree 45).length - 1) +
        (BitLen 45 - ((buildTree 45).getD ((buildTree 45).length - 1) default).l) :=
  FindChain_length_bound identityAlgorithm () 45 (by decide) (by decide)

end yacobi

namespace yacobi

/-! ## The trie of buildTree -/

theorem Extract_self (seq b : Nat) : Extract seq b b = 0 := by
  simp [Extract, Nat.mod_one]

theorem Extract_succ (seq b0 b : Nat) (h : b0 ≤ b) :
    Extract seq b0 (b + 1) = Extract seq b0 b + Bit seq b * 2 ^ (b - b0) := by
  unfold Extract Bit
  have e1 : b + 1 - b0 = (b - b0) + 1 := by omega
  have e2 : seq / 2 ^ b0 / 2 ^ (b - b0) = seq / 2 ^ b := by
    rw [Nat.div_div_eq_div_mul, ← pow_add]
    congr 2
    omega
  rw [e1, Nat.mod_pow_succ, e2, Nat.mul_comm]

theorem Extract_lt (seq b0 b : Nat) : Extract seq b0 b < 2 ^ (b - b0) :=
  Nat.mod_lt _ (Nat.two_pow_pos _)

theorem label_of_symbol (heap heap1 : List node) (q q1 : Nat) (hq : 0 < q) (hq1 : 0 < q1)
    (h : symbol (deref heap1 q1) = symbol (deref heap q)) :
    label heap1 q1 = label heap q := by
  obtain ⟨he, _, hl⟩ := (symbol_eq_iff _ _).mp h
  unfold label
  rw [if_neg (by omega), if_neg (by omega), he, hl]

/-- The descent of `buildTree` in a trie: when it stops below the end of the bits, it stopped
on an absent child slot of the node whose path is the bits read before the last one. -/
theorem descend_trie (seq n b0 : Nat) (heap : List node) (ht : IsTrie heap) :
    ∀ (fuel b l p ns : Nat), n - b ≤ fuel → b0 ≤ b → p < heap.length →
      label heap p = (Extract seq b0 b, b - b0) →
      (descend seq n heap fuel b l p ns).1 < n →
      b < (descend seq n heap fuel b l p ns).1 ∧
        (descend seq n heap fuel b l p ns).2.2.1 < heap.length ∧
        (descend seq n heap fuel b l p ns).2.2.2 =
          Bit seq ((descend seq n heap fuel b l p ns).1 - 1) ∧
        childSlot heap (descend seq n heap fuel b l p ns).2.2.1
          (descend seq n heap fuel b l p ns).2.2.2 = none ∧
        label heap (descend seq n heap fuel b l p ns).2.2.1 =
          (Extract seq b0 ((descend seq n heap fuel b l p ns).1 - 1),
            (descend seq n heap fuel b l p ns).1 - 1 - b0) := by
  intro fuel
  induction fuel with
  | zero =>
    intro b l p ns hf _ _ _ hlt
    simp only [descend] at hlt
    omega
  | succ fuel ih =>
    intro b l p ns hf hb hp hlab hlt
    unfold descend at hlt ⊢
    split at hlt
    · simp only [] at hlt
      omega
    · rename_i hbn
      rw [if_neg hbn]
      simp only [] at hlt ⊢
      have hbit := Bit_lt_two seq b
      have hnext : ∀ q, childSlot heap p (Bit seq b) = some q →
          q < heap.length ∧ label heap q = (Extract seq b0 (b + 1), b + 1 - b0) := by
        intro q hq
        obtain ⟨_, h2, h3⟩ := ht.edges p (Bit seq b) q hp hbit hq
        refine ⟨h2, ?_⟩
        rw [h3, hlab, Extract_succ seq b0 b hb]
        simp only [Prod.mk.injEq, true_and]
        omega
      split at hlt
      · rename_i hz
        have hslot : childSlot heap p (Bit seq b) = (deref heap p).childZero := by
          simp [childSlot, hz]
        rw [if_pos hz]
        split at hlt
        · rename_i hnone
          simp only [Nat.add_sub_cancel]
          refine ⟨by omega, hp, trivial, ?_, hlab⟩
          rw [hslot, hnone]
        · rename_i q hsome
          obtain ⟨hq1, hq2⟩ := hnext q (by rw [hslot, hsome])
          obtain ⟨r1, r2⟩ := ih (b + 1) (l + 1) q (Bit seq b) (by omega) (by omega) hq1 hq2 hlt
          exact ⟨by omega, r2⟩
      · rename_i hz
        have hslot : childSlot heap p (Bit seq b) = (deref heap p).childOne := by
          simp [childSlot, hz]
        rw [if_neg hz]
        split at hlt
        · rename_i hnone
          simp only [Nat.add_sub_cancel]
          refine ⟨by omega, hp, trivial, ?_, hlab⟩
          rw [hslot, hnone]
        · rename_i q hsome
          obtain ⟨hq1, hq2⟩ := hnext q (by rw [hslot, hsome])
          obtain ⟨r1, r2⟩ := ih (b + 1) (l + 1) q (Bit seq b) (by omega) (by omega) hq1 hq2 hlt
          exact ⟨by omega, r2⟩

end yacobi

namespace yacobi

theorem buildStep_attach (seq n b : Nat) (heap : List node) (ptrs : List Nat)
    (st : Nat × List node × List Nat) (h : buildStep seq n b heap ptrs = some st) :
    ∃ (b1 : Nat) (lf : node), b ≤ b1 ∧ b1 < n ∧ b1 < st.1 ∧
      b1 = (skipZeros seq n (n - b) b 0).1 ∧
      (descend seq n heap (n - b1) b1 0 0 0).1 = st.1 ∧
      lf.childZero = none ∧ lf.childOne = none ∧
      lf.e = Extract seq b1 st.1 ∧ lf.l = st.1 - b1 ∧
      st.2.1 = attach (heap ++ [lf]) (descend seq n heap (n - b1) b1 0 0 0).2.2.1
        (descend seq n heap (n - b1) b1 0 0 0).2.2.2 heap.length ∧
      st.2.2 = ptrs ++ [heap.length] := by
  unfold buildStep at h
  simp only [] at h
  split at h
  · simp at h
  · rename_i hlt
    injection h with h
    subst h
    obtain ⟨s1, _, _, _⟩ := skipZeros_spec seq n (n - b) b 0
    obtain ⟨_, d2, _, d4⟩ := descend_spec seq n heap
      (n - (skipZeros seq n (n - b) b 0).1) (skipZeros seq n (n - b) b 0).1 0 0 0
    have hd := d4 (by omega) (by omega)
    refine ⟨(skipZeros seq n (n - b) b 0).1, _, s1, by omega, hd, rfl, rfl, rfl, rfl, rfl, ?_,
      rfl, rfl⟩
    simp only []
    omega

theorem length_attach (heap : List node) (p ns q : Nat) :
    (attach heap p ns q).length = heap.length := by
  unfold attach setChildZero setChildOne
  split <;> simp

theorem symbol_deref_attach (heap : List node) (p ns q i : Nat) :
    symbol (deref (attach heap p ns q) i) = symbol (deref heap i) := by
  unfold attach
  split
  · exact symbol_deref_setChildZero heap p q i
  · exact symbol_deref_setChildOne heap p q i

theorem label_attach (heap : List node) (p ns q i : Nat) :
    label (attach heap p ns q) i = label heap i := by
  obtain ⟨he, _, hl⟩ := (symbol_eq_iff _ _).mp (symbol_deref_attach heap p ns q i)
  unfold label
  rw [he, hl]

theorem childSlot_attach (heap : List node) (p ns q p1 ns1 : Nat) (hp : p < heap.length)
    (hns : ns < 2) (hns1 : ns1 < 2) :
    childSlot (attach heap p ns q) p1 ns1 =
      if p1 = p ∧ ns1 = ns then some q else childSlot heap p1 ns1 := by
  unfold attach childSlot setChildZero setChildOne
  by_cases h0 : ns = 0
  · rw [if_pos h0, deref_set]
    by_cases hpp : p = p1
    · subst hpp
      by_cases h1 : ns1 = 0
      · simp [h0, h1, hp]
      · simp [h0, h1, hp]
    · have hpp2 : ¬ p1 = p := fun e => hpp e.symm
      simp [hpp, hpp2]
  · rw [if_neg h0, deref_set]
    by_cases hpp : p = p1
    · subst hpp
      by_cases h1 : ns1 = 0
      · have hne : ¬ 0 = ns := by omega
        simp [h1, hp, hne]
      · have he : ns1 = ns := by omega
        simp [h1, hp, he, h0]
    · have hpp2 : ¬ p1 = p := fun e => hpp e.symm
      simp [hpp, hpp2]

theorem label_append (heap : List node) (lf : node) (i : Nat) (h : i < heap.length) :
    label (heap ++ [lf]) i = label heap i := by
  unfold label
  rw [deref_append_left heap lf i h]

theorem childSlot_append (heap : List node) (lf : node) (i ns : Nat) (h : i < heap.length) :
    childSlot (heap ++ [lf]) i ns = childSlot heap i ns := by
  unfold childSlot
  rw [deref_append_left heap lf i h]

theorem label_append_length (heap : List node) (lf : node) (h : 0 < heap.length) :
    label (heap ++ [lf]) heap.length = (lf.e, lf.l) := by
  unfold label
  rw [if_neg (by omega), deref_append_length]

theorem childSlot_append_length (heap : List node) (lf : node) (ns : Nat)
    (h0 : lf.childZero = none) (h1 : lf.childOne = none) :
    childSlot (heap ++ [lf]) heap.length ns = none := by
  unfold childSlot
  rw [deref_append_length]
  split
  · exact h0
  · exact h1

/-- A sum `v + ns * 2^d` with `v < 2^d` determines `v` and `ns`. -/
theorem path_unique (v1 v2 ns1 ns2 d : Nat) (h1 : v1 < 2 ^ d) (h2 : v2 < 2 ^ d)
    (h : v1 + ns1 * 2 ^ d = v2 + ns2 * 2 ^ d) : v1 = v2 ∧ ns1 = ns2 := by
  have hp : 0 < 2 ^ d := Nat.two_pow_pos d
  have e1 : (v1 + ns1 * 2 ^ d) % 2 ^ d = v1 := by
    rw [Nat.add_mul_mod_self_right, Nat.mod_eq_of_lt h1]
  have e2 : (v2 + ns2 * 2 ^ d) % 2 ^ d = v2 := by
    rw [Nat.add_mul_mod_self_right, Nat.mod_eq_of_lt h2]
  have hv : v1 = v2 := by rw [← e1, ← e2, h]
  subst hv
  exact ⟨rfl, Nat.eq_of_mul_eq_mul_right hp (Nat.add_left_cancel h)⟩

end yacobi

namespace yacobi

theorem label_zero (heap : List node) : label heap 0 = (0, 0) := by
  simp [label]

/-- One iteration of the outer loop of `buildTree` that does not reach the end of the bits
keeps the heap a trie, and its leaf is a new symbol attached in an absent slot. -/
theorem trie_step (seq n b : Nat) (heap : List node) (ptrs : List Nat)
    (st : Nat × List node × List Nat) (ht : IsTrie heap) (hlen : 1 ≤ heap.length)
    (h : buildStep seq n b heap ptrs = some st) (hlt : st.1 < n) :
    IsTrie st.2.1 ∧ newSymbol st.2.1 heap.length ∧ attachedSlot seq n b heap = none := by
  obtain ⟨b1, lf, _, _, hb1st, hskip, hd, c0, c1, he, hl, hheap, _⟩ :=
    buildStep_attach seq n b heap ptrs st h
  have hroot : label heap 0 = (Extract seq b1 b1, b1 - b1) := by
    simp [label, Extract_self]
  obtain ⟨_, t2, t3, t4, t5⟩ := descend_trie seq n b1 heap ht (n - b1) b1 0 0 0 (le_refl _)
    (le_refl _) (by omega) hroot (by rw [hd]; exact hlt)
  have hslotNone : attachedSlot seq n b heap = none := by
    unfold attachedSlot
    simp only []
    rw [← hskip]
    exact t4
  generalize (descend seq n heap (n - b1) b1 0 0 0).2.2.1 = p at t2 t3 t4 t5 hheap
  generalize (descend seq n heap (n - b1) b1 0 0 0).2.2.2 = ns at t3 t4 t5 hheap
  rw [hd] at t3 t5
  have hns : ns < 2 := by rw [t3]; exact Bit_lt_two _ _
  have hpH : p < (heap ++ [lf]).length := by simp; omega
  have Flen : st.2.1.length = heap.length + 1 := by
    rw [hheap, length_attach]; simp
  have Fold : ∀ i < heap.length, label st.2.1 i = label heap i := by
    intro i hi
    rw [hheap, label_attach, label_append heap lf i hi]
  have hsucc : st.1 - 1 + 1 = st.1 := by omega
  have Fnew : label st.2.1 heap.length =
      ((label heap p).1 + ns * 2 ^ (label heap p).2, (label heap p).2 + 1) := by
    rw [hheap, label_attach, label_append_length heap lf (by omega), he, hl, t5, t3]
    have := Extract_succ seq b1 (st.1 - 1) (by omega)
    rw [hsucc] at this
    simp only [Prod.mk.injEq]
    exact ⟨this, by omega⟩
  have Fslot : ∀ p1 ns1, ns1 < 2 → p1 < heap.length →
      childSlot st.2.1 p1 ns1 = if p1 = p ∧ ns1 = ns then some heap.length
        else childSlot heap p1 ns1 := by
    intro p1 ns1 h1 h2
    rw [hheap, childSlot_attach _ _ _ _ _ _ hpH hns h1, childSlot_append heap lf p1 ns1 h2]
  have FslotNew : ∀ ns1, ns1 < 2 → childSlot st.2.1 heap.length ns1 = none := by
    intro ns1 h1
    rw [hheap, childSlot_attach _ _ _ _ _ _ hpH hns h1,
      if_neg (by intro hc; omega), childSlot_append_length heap lf ns1 c0 c1]
  have K : ∀ q1 < heap.length, label heap q1 ≠ label st.2.1 heap.length := by
    intro q1 hq1 heq
    rw [Fnew] at heq
    have hq0 : 0 < q1 := by
      rcases Nat.eq_zero_or_pos q1 with h0 | h0
      · subst h0
        rw [label_zero] at heq
        have := congrArg Prod.snd heq
        simp only [] at this
        omega
      · exact h0
    obtain ⟨p1, ns1, hp1, hns1, hs1⟩ := ht.parent q1 hq0 hq1
    obtain ⟨_, _, e1⟩ := ht.edges p1 ns1 q1 hp1 hns1 hs1
    rw [e1] at heq
    simp only [Prod.mk.injEq] at heq
    obtain ⟨hv, hdep⟩ := heq
    have hdep2 : (label heap p1).2 = (label heap p).2 := by omega
    have b1 := ht.bound p1 hp1
    have b2 := ht.bound p t2
    rw [hdep2] at hv b1
    obtain ⟨ev, ens⟩ := path_unique _ _ _ _ _ b1 b2 hv
    have hpp : p1 = p := ht.inj p1 p hp1 t2 (Prod.ext ev hdep2)
    rw [hpp, ens, t4] at hs1
    simp at hs1
  refine ⟨⟨?_, ?_, ?_, ?_⟩, ⟨?_, ?_⟩, hslotNone⟩
  · intro p1 ns1 q2 hp1 hns1 hs
    rw [Flen] at hp1 ⊢
    rcases Nat.lt_or_ge p1 heap.length with hold | hnew
    · rw [Fslot p1 ns1 hns1 hold] at hs
      split at hs
      · rename_i hc
        injection hs with hs
        subst hs
        rw [Fnew, Fold p1 hold, hc.1, hc.2]
        exact ⟨by omega, by omega, rfl⟩
      · obtain ⟨e1, e2, e3⟩ := ht.edges p1 ns1 q2 hold hns1 hs
        rw [Fold q2 e2, Fold p1 hold]
        exact ⟨e1, by omega, e3⟩
    · have e : p1 = heap.length := by omega
      rw [e, FslotNew ns1 hns1] at hs
      simp at hs
  · intro q2 hq0 hq2
    rw [Flen] at hq2 ⊢
    rcases Nat.lt_or_ge q2 heap.length with hold | hnew
    · obtain ⟨p1, ns1, hp1, hns1, hs1⟩ := ht.parent q2 hq0 hold
      refine ⟨p1, ns1, by omega, hns1, ?_⟩
      rw [Fslot p1 ns1 hns1 hp1, if_neg]
      · exact hs1
      · intro hc
        rw [hc.1, hc.2, t4] at hs1
        simp at hs1
    · have e : q2 = heap.length := by omega
      refine ⟨p, ns, by omega, hns, ?_⟩
      rw [Fslot p ns hns t2, if_pos ⟨rfl, rfl⟩, e]
  · intro q1 q2 hq1 hq2 heq
    rw [Flen] at hq1 hq2
    rcases Nat.lt_or_ge q1 heap.length with h1 | h1
    · rcases Nat.lt_or_ge q2 heap.length with h2 | h2
      · rw [Fold q1 h1, Fold q2 h2] at heq
        exact ht.inj q1 q2 h1 h2 heq
      · have e : q2 = heap.length := by omega
        rw [e, Fold q1 h1] at heq
        exact absurd heq (K q1 h1)
    · have e1 : q1 = heap.length := by omega
      rcases Nat.lt_or_ge q2 heap.length with h2 | h2
      · rw [e1, Fold q2 h2] at heq
        exact absurd heq.symm (K q2 h2)
      · omega
  · intro q1 hq1
    rw [Flen] at hq1
    rcases Nat.lt_or_ge q1 heap.length with h1 | h1
    · rw [Fold q1 h1]
      exact ht.bound q1 h1
    · have e1 : q1 = heap.length := by omega
      rw [e1, hheap, label_attach, label_append_length heap lf (by omega), he, hl]
      exact Extract_lt seq b1 st.1
  · intro q1 _ hq1
    rw [Fold q1 hq1]
    exact K q1 hq1
  · intro hdepth
    rw [Fnew] at hdepth ⊢
    simp only [] at hdepth
    have hp0 : 0 < p := by
      rcases Nat.eq_zero_or_pos p with h0 | h0
      · subst h0
        rw [label_zero] at hdepth
        simp only [] at hdepth
        omega
      · exact h0
    refine ⟨p, hp0, t2, ?_⟩
    rw [Fold p t2]
    simp only [Nat.add_sub_cancel]
    rw [Nat.add_mul_mod_self_right, Nat.mod_eq_of_lt (ht.bound p t2)]

end yacobi

namespace yacobi

theorem newSymbol_of_label (heap heap1 : List node) (q : Nat)
    (hlab : ∀ i, i ≤ q → label heap1 i = label heap i) (h : newSymbol heap q) :
    newSymbol heap1 q := by
  obtain ⟨h1, h2⟩ := h
  refine ⟨fun q1 hq0 hq1 => ?_, fun hd => ?_⟩
  · rw [hlab q1 (by omega), hlab q (le_refl _)]
    exact h1 q1 hq0 hq1
  · rw [hlab q (le_refl _)] at hd ⊢
    obtain ⟨q1, a, b, c⟩ := h2 hd
    exact ⟨q1, a, b, by rw [hlab q1 (by omega)]; exact c⟩

theorem isTrie_root : IsTrie [⟨One, 0, 0, none, none⟩] := by
  refine ⟨?_, ?_, ?_, ?_⟩
  · intro p ns q hp _ hs
    simp only [List.length_singleton] at hp
    have e : p = 0 := by omega
    subst e
    unfold childSlot deref at hs
    split at hs <;> simp at hs
  · intro q h0 h1
    simp only [List.length_singleton] at h1
    omega
  · intro q1 q2 h1 h2 _
    simp only [List.length_singleton] at h1 h2
    omega
  · intro q h1
    simp only [List.length_singleton] at h1
    have e : q = 0 := by omega
    subst e
    rw [label_zero]
    simp

theorem lempelZiv_step (seq n b : Nat) (heap : List node) (ptrs : List Nat)
    (st : Nat × List node × List Nat) (hI : lempelZiv n b heap ptrs) (hb : b < n)
    (h : buildStep seq n b heap ptrs = some st) : lempelZiv n st.1 st.2.1 st.2.2 := by
  obtain ⟨i1, i2, _, i4⟩ := hI
  obtain ⟨hall, ht⟩ := i4 hb
  obtain ⟨z, l, _, _, _, _, _, _, h7, h8, h9, _⟩ := buildStep_bits seq n b heap ptrs st h
  have Fold : ∀ i, i < heap.length → label st.2.1 i = label heap i := by
    intro i hi
    rcases Nat.eq_zero_or_pos i with h0 | h0
    · rw [h0, label_zero, label_zero]
    · exact label_of_symbol heap st.2.1 i i h0 h0 (h9 i hi)
  have hold : ∀ q, 0 < q → q < heap.length → newSymbol st.2.1 q := fun q h0 hq =>
    newSymbol_of_label heap st.2.1 q (fun i hi => Fold i (by omega)) (hall q h0 hq)
  refine ⟨by omega, ?_, ?_, ?_⟩
  · rw [h7, i2, h8]
    have e : heap.length + 1 - 1 = (heap.length - 1) + 1 := by omega
    rw [e, List.range'_1_concat]
    congr 2
    omega
  · intro q h0 hq
    exact hold q h0 (by omega)
  · intro hlt
    obtain ⟨t1, t2, _⟩ := trie_step seq n b heap ptrs st ht i1 h hlt
    refine ⟨fun q h0 hq => ?_, t1⟩
    rcases Nat.lt_or_ge q heap.length with hq1 | hq1
    · exact hold q h0 hq1
    · have e : q = heap.length := by omega
      rw [e]
      exact t2

/-- At the end of `buildTree` the parses are the leaves in the order of their addresses and
every leaf but the last is a new symbol. -/
theorem lempelZiv_buildTree (seq : Nat) :
    ∃ b1 : Nat, lempelZiv (BitLen seq) b1 (buildTreeState seq).1 (buildTreeState seq).2 := by
  have h0 : lempelZiv (BitLen seq) 0 [⟨One, 0, 0, none, none⟩] [] :=
    ⟨by simp, by simp, fun q _ hq => by simp at hq, fun _ =>
      ⟨fun q h0 hq => by simp at hq; omega, isTrie_root⟩⟩
  obtain ⟨b1, hI, _⟩ := buildLoop_induction seq (BitLen seq) (lempelZiv (BitLen seq))
    (fun b heap ptrs st hI hb h => lempelZiv_step seq _ b heap ptrs st hI hb h)
    (BitLen seq) 0 [⟨One, 0, 0, none, none⟩] [] h0 (by omega)
  exact ⟨b1, hI⟩

theorem buildTree_getD (seq : Nat) (i : Nat) (hi : i < (buildTree seq).length) :
    (buildTree seq).length + 1 = (buildTreeState seq).1.length ∧
      (buildTree seq).getD i default = deref (buildTreeState seq).1 (i + 1) := by
  obtain ⟨b1, i1, i2, _, _⟩ := lempelZiv_buildTree seq
  have hlen : (buildTree seq).length = (buildTreeState seq).1.length - 1 := by
    unfold buildTree
    simp only [List.length_map]
    rw [i2]
    simp
  refine ⟨by omega, ?_⟩
  rw [List.getD_eq_getElem _ _ hi]
  unfold buildTree
  simp only [List.getElem_map]
  congr 1
  have : ∀ (ptrs : List Nat) (m : Nat) (hm : i < ptrs.length), ptrs = List.range' 1 m →
      ptrs[i] = i + 1 := by
    intro ptrs m hm e
    subst e
    rw [List.getElem_range']
    omega
  exact this _ _ _ i2

end yacobi

namespace yacobi

/-- C13: Lempel-Ziv property of `buildTree`.  For every target `n > 0`, every parse except
possibly the last is a new symbol that extends an earlier one by exactly one bit: its pair
`(e, l)` differs from the pair of every earlier parse, and when `l ≥ 2` some earlier parse has
length `l - 1` and value `e mod 2^(l-1)`. -/
theorem buildTree_lempel_ziv (n : Nat) (_hn : 0 < n) (i : Nat)
    (hi : i + 1 < (buildTree n).length) :
    (∀ j < i, (((buildTree n).getD j default).e, ((buildTree n).getD j default).l) ≠
        (((buildTree n).getD i default).e, ((buildTree n).getD i default).l)) ∧
      (2 ≤ ((buildTree n).getD i default).l → ∃ j < i,
        ((buildTree n).getD j default).l = ((buildTree n).getD i default).l - 1 ∧
          ((buildTree n).getD j default).e =
            ((buildTree n).getD i default).e % 2 ^ (((buildTree n).getD i default).l - 1)) := by
  obtain ⟨b1, _, _, i3, _⟩ := lempelZiv_buildTree n
  obtain ⟨hlen, hget⟩ := buildTree_getD n i (by omega)
  have hlab : ∀ j, j < (buildTree n).length → label (buildTreeState n).1 (j + 1) =
      (((buildTree n).getD j default).e, ((buildTree n).getD j default).l) := by
    intro j hj
    rw [(buildTree_getD n j hj).2]
    simp [label]
  obtain ⟨h1, h2⟩ := i3 (i + 1) (by omega) (by omega)
  rw [hlab i (by omega)] at h1 h2
  refine ⟨fun j hj => ?_, fun hl => ?_⟩
  · have := h1 (j + 1) (by omega) (by omega)
    rw [hlab j (by omega)] at this
    exact this
  · obtain ⟨q1, a, b, c⟩ := h2 hl
    obtain ⟨j, rfl⟩ : ∃ j, q1 = j + 1 := ⟨q1 - 1, by omega⟩
    rw [hlab j (by omega)] at c
    simp only [Prod.mk.injEq] at c
    exact ⟨j, by omega, c.2, c.1⟩

theorem buildTree_lempel_ziv_witness :
    ∃ j < 1, ((buildTree 15).getD j default).l = ((buildTree 15).getD 1 default).l - 1 ∧
      ((buildTree 15).getD j default).e =
        ((buildTree 15).getD 1 default).e % 2 ^ (((buildTree 15).getD 1 default).l - 1) :=
  (buildTree_lempel_ziv 15 (by decide) 1 (by decide)).2 (by decide)

end yacobi

namespace yacobi

/-- C14 fails at target 15 (binary 1111).  The third iteration of the outer loop starts at
bit 3, matches the node of the symbol `1` and runs out of bits; the leaf is attached in the
one-slot of that node, which holds the leaf of the second parse (address 2) and is
overwritten with the new leaf (address 3). -/
theorem buildTree_overwrites_child :
    buildStep 15 (BitLen 15) 0 [⟨1, 0, 0, none, none⟩] [] =
        some (1, [⟨1, 0, 0, some 1, none⟩, ⟨1, 1, 0, none, none⟩], [1]) ∧
      buildStep 15 (BitLen 15) 1 [⟨1, 0, 0, some 1, none⟩, ⟨1, 1, 0, none, none⟩] [1] =
        some (3, [⟨1, 0, 0, some 1, none⟩, ⟨1, 1, 0, some 2, none⟩, ⟨3, 2, 0, none, none⟩],
          [1, 2]) ∧
      descend 15 (BitLen 15)
          [⟨1, 0, 0, some 1, none⟩, ⟨1, 1, 0, some 2, none⟩, ⟨3, 2, 0, none, none⟩]
          (BitLen 15 - 3) 3 0 0 0 = (4, 1, 1, 1) ∧
      attachedSlot 15 (BitLen 15) 3
          [⟨1, 0, 0, some 1, none⟩, ⟨1, 1, 0, some 2, none⟩, ⟨3, 2, 0, none, none⟩] = some 2 ∧
      buildStep 15 (BitLen 15) 3
          [⟨1, 0, 0, some 1, none⟩, ⟨1, 1, 0, some 2, none⟩, ⟨3, 2, 0, none, none⟩] [1, 2] =
        some (4, [⟨1, 0, 0, some 1, none⟩, ⟨1, 1, 0, some 3, none⟩, ⟨3, 2, 0, none, none⟩,
          ⟨1, 1, 0, none, none⟩], [1, 2, 3]) ∧
      buildTreeState 15 =
        ([⟨1, 0, 0, some 1, none⟩, ⟨1, 1, 0, some 3, none⟩, ⟨3, 2, 0, none, none⟩,
          ⟨1, 1, 0, none, none⟩], [1, 2, 3]) := by
  decide

end yacobi

namespace ensemble

/-! ## Order and wrapping of the ensemble -/

theorem wrapAll_getElem? {ι : Type} (as : List (ChainAlgorithm ι)) : ∀ k i : Nat,
    ((List.range k).foldl (fun as i =>
      match as.get? i with
      | some a => as.set i (ChainAlgorithm.opt a)
      | none => as) as)[i]? =
      if i < k then as[i]?.map ChainAlgorithm.opt else as[i]? := by
  intro k
  induction k with
  | zero => intro i; simp
  | succ k ih =>
    intro i
    rw [List.range_succ, List.foldl_append]
    simp only [List.foldl_cons, List.foldl_nil]
    generalize (List.range k).foldl (fun as i =>
      match as.get? i with
      | some a => as.set i (ChainAlgorithm.opt a)
      | none => as) as = acc at ih ⊢
    have hk := ih k
    simp only [Nat.lt_irrefl, if_false] at hk
    rw [List.get?_eq_getElem?, hk]
    cases hask : as[k]? with
    | none =>
      simp only []
      rw [ih i]
      by_cases h1 : i < k
      · simp [h1, Nat.lt_succ_of_lt h1]
      · by_cases h2 : i = k
        · subst h2
          simp [hask]
        · have h3 : ¬ i < k + 1 := by omega
          simp [h1, h3]
    | some a =>
      simp only []
      rw [List.getElem?_set]
      by_cases h2 : k = i
      · subst h2
        rw [hask] at hk
        have hlen2 : k < acc.length := (List.getElem?_eq_some.mp hk).1
        simp [hlen2, hask]
      · rw [if_neg h2, ih i]
        by_cases h1 : i < k
        · simp [h1, Nat.lt_succ_of_lt h1]
        · have h3 : ¬ i < k + 1 := by omega
          simp [h1, h3]

/-- The optimization loop wraps every entry and keeps the order. -/
theorem wrapAll_eq_map {ι : Type} (as : List (ChainAlgorithm ι)) :
    wrapAll as = as.map ChainAlgorithm.opt := by
  apply List.ext_getElem?
  intro i
  unfold wrapAll
  rw [wrapAll_getElem?, List.getElem?_map]
  split
  · rfl
  · rename_i h
    rw [List.getElem?_eq_none (by omega)]
    rfl

theorem seqalgs_foldl_eq {ι : Type} (Singleton : ι → Bool) :
    ∀ (Strategies : List ι) (init : List (SequenceAlgorithm ι)),
    Strategies.foldl (fun seqalgs strategy =>
      if Singleton strategy then seqalgs ++ [SequenceAlgorithm.contfrac strategy] else seqalgs)
      init = init ++ (Strategies.filter Singleton).map SequenceAlgorithm.contfrac := by
  intro Strategies
  induction Strategies with
  | nil => intro init; simp
  | cons a t ih =>
    intro init
    rw [List.foldl_cons, ih]
    by_cases h : Singleton a = true
    · simp [h]
    · simp [h]

theorem foldl_append_eq {α β : Type} (g : α → β) : ∀ (xs : List α) (init : List β),
    xs.foldl (fun as x => as ++ [g x]) init = init ++ xs.map g := by
  intro xs
  induction xs with
  | nil => intro init; simp
  | cons a t ih =>
    intro init
    rw [List.foldl_cons, ih]
    simp

theorem cross_eq {ι : Type} (ss : List (SequenceAlgorithm ι)) :
    ∀ (ds : List Decomposer) (init : List (ChainAlgorithm ι)),
    ds.foldl (fun as decomp =>
      ss.foldl (fun as seqalg => as ++ [ChainAlgorithm.dict decomp seqalg]) as) init =
      init ++ ds.flatMap (fun decomp => ss.map (fun seqalg => ChainAlgorithm.dict decomp seqalg))
    := by
  intro ds
  induction ds with
  | nil => intro init; simp
  | cons d t ih =>
    intro init
    rw [List.foldl_cons, ih, foldl_append_eq (fun seqalg => ChainAlgorithm.dict d seqalg)]
    simp

/-- The result of `Ensemble` in closed form. -/
theorem Ensemble_eq {ι : Type} (Strategies : List ι) (Singleton : ι → Bool) :
    Ensemble Strategies Singleton =
      (decomposers.flatMap (fun decomp =>
          (seqalgs Strategies Singleton).map (fun seqalg => ChainAlgorithm.dict decomp seqalg)) ++
        (seqalgs Strategies Singleton).map (fun seqalg => ChainAlgorithm.runs seqalg)).map
        ChainAlgorithm.opt := by
  unfold Ensemble
  simp only []
  rw [wrapAll_eq_map, foldl_append_eq (fun seqalg => ChainAlgorithm.runs seqalg), cross_eq]
  simp

/-- Entry `i * S + j` of a concatenation of blocks of length `S` is entry `j` of block `i`. -/
theorem getElem?_flatMap_block {α β : Type} (f : α → List β) (S : Nat)
    (hS : ∀ a, (f a).length = S) : ∀ (ds : List α) (i j : Nat) (d : α), ds[i]? = some d →
    j < S → (ds.flatMap f)[i * S + j]? = (f d)[j]? := by
  intro ds
  induction ds with
  | nil => intro i j d h; simp at h
  | cons a t ih =>
    intro i j d h hj
    rw [List.flatMap_cons]
    cases i with
    | zero =>
      simp at h
      subst h
      rw [Nat.zero_mul, Nat.zero_add, List.getElem?_append_left (by rw [hS]; exact hj)]
    | succ i =>
      simp at h
      rw [List.getElem?_append_right (by rw [hS, Nat.succ_mul]; omega)]
      rw [hS]
      have e : (i + 1) * S + j - S = i * S + j := by rw [Nat.succ_mul]; omega
      rw [e]
      exact ih i j d h hj

theorem length_flatMap_block {α β : Type} (f : α → List β) (S : Nat)
    (hS : ∀ a, (f a).length = S) : ∀ (ds : List α), (ds.flatMap f).length = ds.length * S := by
  intro ds
  induction ds with
  | nil => simp
  | cons a t ih =>
    rw [List.flatMap_cons, List.length_append, ih, hS, List.length_cons, Nat.succ_mul]
    omega

end ensemble

namespace ensemble

/-- C11: order and wrapping of the ensemble.  The sequence algorithms are the two heuristic
ones followed by one per singleton strategy in catalog order; with `S` of them and `D`
decomposers, the entry at index `i * S + j` is the optimization wrapper around the dictionary
algorithm of decomposer `i` and sequence algorithm `j`, the entry at index `D * S + j` is the
optimization wrapper around the runs algorithm of sequence algorithm `j`, and every entry is
an optimization wrapper around a dictionary or runs algorithm. -/
theorem Ensemble_order_and_wrapping {ι : Type} (Strategies : List ι) (Singleton : ι → Bool) :
    seqalgs Strategies Singleton =
        [SequenceAlgorithm.heuristic [Heuristic.Halving, Heuristic.DeltaLargest],
          SequenceAlgorithm.heuristic [Heuristic.Halving, Heuristic.Approximation]] ++
          (Strategies.filter Singleton).map SequenceAlgorithm.contfrac ∧
      (∀ (i j : Nat) (d : Decomposer) (sa : SequenceAlgorithm ι), decomposers[i]? = some d →
        (seqalgs Strategies Singleton)[j]? = some sa →
        (Ensemble Strategies Singleton)[i * (seqalgs Strategies Singleton).length + j]? =
          some (ChainAlgorithm.opt (ChainAlgorithm.dict d sa))) ∧
      (∀ (j : Nat) (sa : SequenceAlgorithm ι), (seqalgs Strategies Singleton)[j]? = some sa →
        (Ensemble Strategies Singleton)[decomposers.length *
            (seqalgs Strategies Singleton).length + j]? =
          some (ChainAlgorithm.opt (ChainAlgorithm.runs sa))) ∧
      (∀ a ∈ Ensemble Strategies Singleton, ∃ b, a = ChainAlgorithm.opt b ∧
        ((∃ d sa, b = ChainAlgorithm.dict d sa) ∨ ∃ sa, b = ChainAlgorithm.runs sa)) := by
  have hS : ∀ d : Decomposer, ((seqalgs Strategies Singleton).map
      (fun seqalg => ChainAlgorithm.dict d seqalg)).length =
      (seqalgs Strategies Singleton).length := fun d => by simp
  have hlen := length_flatMap_block (fun decomp => (seqalgs Strategies Singleton).map
    (fun seqalg => ChainAlgorithm.dict decomp seqalg)) _ hS decomposers
  refine ⟨?_, ?_, ?_, ?_⟩
  · unfold seqalgs
    simp only []
    rw [seqalgs_foldl_eq]
  · intro i j d sa hd hsa
    have hi : i < decomposers.length := (List.getElem?_eq_some.mp hd).1
    have hj : j < (seqalgs Strategies Singleton).length := (List.getElem?_eq_some.mp hsa).1
    have hidx : i * (seqalgs Strategies Singleton).length + j <
        decomposers.length * (seqalgs Strategies Singleton).length := by
      have h1 : (i + 1) * (seqalgs Strategies Singleton).length ≤
          decomposers.length * (seqalgs Strategies Singleton).length :=
        Nat.mul_le_mul_right _ hi
      rw [Nat.succ_mul] at h1
      omega
    rw [Ensemble_eq, List.getElem?_map, List.getElem?_append_left (by rw [hlen]; exact hidx),
      getElem?_flatMap_block _ _ hS decomposers i j d hd hj, List.getElem?_map, hsa]
    rfl
  · intro j sa hsa
    rw [Ensemble_eq, List.getElem?_map, List.getElem?_append_right (by rw [hlen]; omega), hlen,
      Nat.add_sub_cancel_left, List.getElem?_map, hsa]
    rfl
  · intro a ha
    rw [Ensemble_eq] at ha
    obtain ⟨b, hb, e⟩ := List.mem_map.mp ha
    refine ⟨b, e.symm, ?_⟩
    rcases List.mem_append.mp hb with hb | hb
    · obtain ⟨d, _, hb2⟩ := List.mem_flatMap.mp hb
      obtain ⟨sa, _, e2⟩ := List.mem_map.mp hb2
      exact Or.inl ⟨d, sa, e2.symm⟩
    · obtain ⟨sa, _, e2⟩ := List.mem_map.mp hb
      exact Or.inr ⟨sa, e2.symm⟩

set_option maxRecDepth 100000 in
theorem Ensemble_order_and_wrapping_witness :
    (Ensemble [true, false, true] id)[1 * (seqalgs [true, false, true] id).length + 2]? =
      some (ChainAlgorithm.opt (ChainAlgorithm.dict (Decomposer.SlidingWindow 4 0 true)
        (SequenceAlgorithm.contfrac true))) :=
  (Ensemble_order_and_wrapping [true, false, true] id).2.1 1 2 _ _ (by decide) (by decide)

set_option maxRecDepth 1000000 in
theorem decomposers_nodup : decomposers.Nodup := by
  decide

end ensemble

namespace ensemble

theorem pairs_nodup {α : Type} (ds : List α) (h : ds.Nodup) (S : Nat) :
    (ds.flatMap (fun d => (List.range S).map (fun j => (d, j)))).Nodup := by
  rw [List.nodup_flatMap]
  constructor
  · intro d _
    exact (List.nodup_range S).map (fun a b e => (Prod.mk.inj e).2)
  · apply List.Pairwise.imp _ h
    intro a b hab x hxa hxb
    obtain ⟨j, _, e1⟩ := List.mem_map.mp hxa
    obtain ⟨k, _, e2⟩ := List.mem_map.mp hxb
    rw [← e2] at e1
    exact hab (Prod.mk.inj e1).1

set_option maxRecDepth 100000 in
/-- C20: the 122 decomposers built by `Ensemble` are pairwise distinct as parameter tuples
(family and `K`, `Z`, `T`, `S`); half the width `K` is at least 1 for every `K` used, so a
signed variant with `Z = K / 2` never coincides with the signed variant without `Z`; and no
pair (decomposer, index of a sequence algorithm) occurs twice in the catalog, whatever the
number of sequence algorithms. -/
theorem decomposers_distinct :
    decomposers.length = 122 ∧ decomposers.Nodup ∧
      decomposers.all Decomposer.halfWidthPositive = true ∧
      ∀ S : Nat, (decomposers.flatMap (fun d => (List.range S).map (fun j => (d, j)))).Nodup :=
  ⟨by decide, decomposers_nodup, by decide, pairs_nodup decomposers decomposers_nodup⟩

end ensemble
